import Mathlib

/-
Verification of the text-alignment and fuzzy-matching core of the Omnivore
importer (src/importer.py).  Strings are modelled as `List Char`; Python
floats (difflib similarity ratios) are modelled by the exact rational
values they denote, as explicit fractions (`Sim`) compared by
cross-multiplication;
Python `None` becomes `Option`; Python exceptions (`ValueError`,
`IndexError`, `FileNotFoundError`) become `Except`/`Option` results.
All definitions are kernel-computable (structural or fuel-bounded
recursion), so concrete runs can be settled by `decide`/`rfl`.
-/

set_option maxRecDepth 8000

/-- Convert a Lean string literal to the `List Char` representation used
throughout this development. -/
def lc (s : String) : List Char := s.toList

/-- Python `str.isspace`-style whitespace test for the characters Python's
`str.strip()` removes (ASCII whitespace suffices for this code base). -/
def pyIsSpace (c : Char) : Bool :=
  c = ' ' || c = '\t' || c = '\n' || c = '\r' || c = '\x0b' || c = '\x0c'

/-- Python `s.strip()`: remove leading and trailing whitespace. -/
def pyStrip (s : List Char) : List Char :=
  ((s.dropWhile pyIsSpace).reverse.dropWhile pyIsSpace).reverse

/-- Python `s[i:j]` for `0 ≤ i ≤ j` (out-of-range ends are clamped, as in
Python). -/
def pySlice (l : List Char) (i j : Nat) : List Char := (l.take j).drop i

/-- One character under Python's `html.escape` (quote=True), as used by
`html.escape` in `html_to_text_map`. -/
def escapeChar (c : Char) : List Char :=
  if c = '&' then lc ("&amp;")
  else if c = '<' then lc ("&lt;")
  else if c = '>' then lc ("&gt;")
  else if c = '"' then lc ("&quot;")
  else if c = '\'' then lc ("&#x27;")
  else [c]

/-- Python `html.escape(s)` with default `quote=True`. -/
def htmlEscape (s : List Char) : List Char := (s.map escapeChar).flatten

/-- Characters that `html.escape` leaves unchanged. -/
def plainChar (c : Char) : Bool :=
  !(c = '&' || c = '<' || c = '>' || c = '"' || c = '\'')

/-- Accumulator pass for Python `str.split()` (split on whitespace runs,
dropping empty fields).  `cur` holds the current word reversed. -/
def splitWsAux : List Char → List Char → List (List Char)
  | cur, [] => if cur = [] then [] else [cur.reverse]
  | cur, c :: rest =>
      if pyIsSpace c then
        if cur = [] then splitWsAux [] rest else cur.reverse :: splitWsAux [] rest
      else splitWsAux (c :: cur) rest

/-- Python `s.split()` (no separator argument). -/
def splitWs (s : List Char) : List (List Char) := splitWsAux [] s

/-- Accumulator pass for Python `s.split('\n')` (keeps empty fields). -/
def splitNlAux : List Char → List Char → List (List Char)
  | cur, [] => [cur.reverse]
  | cur, c :: rest =>
      if c = '\n' then cur.reverse :: splitNlAux [] rest
      else splitNlAux (c :: cur) rest

/-- Python `s.split('\n')`. -/
def splitNl (s : List Char) : List (List Char) := splitNlAux [] s

/-- Python `'\n'.join(xs)`. -/
def joinNl (xs : List (List Char)) : List Char := List.intercalate ['\n'] xs

/-- Python `' '.join(xs)`. -/
def joinSpace (xs : List (List Char)) : List Char := List.intercalate [' '] xs

/-- State machine for Python `re.split(r'\n\n+', s)`: mode 0 scans a block,
mode 1 has seen a single newline, mode 2 is consuming a separator run of
newlines.  Structural on the input list so the kernel can evaluate it. -/
def splitBlocksGo : Nat → List Char → List Char → List (List Char)
  | 0, cur, [] => [cur.reverse]
  | 0, cur, c :: rest =>
      if c = '\n' then splitBlocksGo 1 cur rest else splitBlocksGo 0 (c :: cur) rest
  | 1, cur, [] => [('\n' :: cur).reverse]
  | 1, cur, c :: rest =>
      if c = '\n' then cur.reverse :: splitBlocksGo 2 [] rest
      else splitBlocksGo 0 (c :: '\n' :: cur) rest
  | _, _, [] => [[]]
  | _, cur, c :: rest =>
      if c = '\n' then splitBlocksGo 2 cur rest else splitBlocksGo 0 [c] rest

/-- Python `re.split(r'\n\n+', s)`: split on maximal runs of two or more
newlines. -/
def splitBlocks (s : List Char) : List (List Char) := splitBlocksGo 0 [] s

/-
Model of `difflib.SequenceMatcher(None, a, b)` (stdlib difflib) as used by
`find_best_match` and `find_closest_match`.  Junk handling is omitted:
with `isjunk=None` and second sequences shorter than 200 characters (the
only regime exercised by this importer's excerpts) difflib's autojunk
never activates, so the junk-extension phases of `find_longest_match`
degenerate to the two plain extension loops modelled below.
-/

/-- Ascending list of indices of `c` in `b` (difflib's `b2j` table). -/
def b2j (b : List Char) (c : Char) : List Nat :=
  (b.enum.filter (fun p => p.2 = c)).map (fun p => p.1)

/-- Inner step of difflib `find_longest_match`'s dynamic program: process
one candidate `j` (an index of `a[i]` inside `b`), threading the
`newj2len` table (as a total function defaulting to 0) and the best
`(besti, bestj, bestsize)` triple; ties never replace the incumbent. -/
def flmStepJ (prev : Nat → Nat) (i : Nat) (acc : (Nat → Nat) × Nat × Nat × Nat)
    (j : Nat) : (Nat → Nat) × Nat × Nat × Nat :=
  let k := (if j = 0 then 0 else prev (j - 1)) + 1
  let f := fun j2 => if j2 = j then k else acc.1 j2
  if acc.2.2.2 < k then (f, i + 1 - k, j + 1 - k, k) else (f, acc.2)

/-- Outer loop of difflib `find_longest_match`'s dynamic program over the
`a`-indices `[alo, ahi)`. -/
def flmOuter (a b : List Char) (blo bhi : Nat) :
    List Nat → (Nat → Nat) → Nat × Nat × Nat → Nat × Nat × Nat
  | [], _, best => best
  | i :: is, prev, best =>
      let js := ((b2j b (a.getD i ' ')).filter (fun j => decide (blo ≤ j))).takeWhile
        (fun j => decide (j < bhi))
      let r := js.foldl (flmStepJ prev i) ((fun _ => 0), best)
      flmOuter a b blo bhi is r.1 r.2

/-- Length of the longest common prefix of two character lists. -/
def commonPrefixLen : List Char → List Char → Nat
  | a :: as, b :: bs => if a = b then commonPrefixLen as bs + 1 else 0
  | _, _ => 0

/-- Length of the longest common suffix of two character lists. -/
def commonSuffixLen (a b : List Char) : Nat := commonPrefixLen a.reverse b.reverse

/-- difflib `SequenceMatcher.find_longest_match(alo, ahi, blo, bhi)` with no
junk: the dynamic program followed by the left and right extension loops. -/
def findLongestMatch (a b : List Char) (alo ahi blo bhi : Nat) : Nat × Nat × Nat :=
  let t := flmOuter a b blo bhi (List.range' alo (ahi - alo)) (fun _ => 0) (alo, blo, 0)
  let e1 := commonSuffixLen (pySlice a alo t.1) (pySlice b blo t.2.1)
  let bi := t.1 - e1
  let bj := t.2.1 - e1
  let bs := t.2.2 + e1
  let e2 := commonPrefixLen (pySlice a (bi + bs) ahi) (pySlice b (bj + bs) bhi)
  (bi, bj, bs + e2)

/-- Total size of difflib's matching blocks on `a[alo:ahi]` × `b[blo:bhi]`:
recursive split at the longest match, exactly as `get_matching_blocks`
accumulates (the queue order does not affect the total).  `fuel` bounds
the recursion depth; `ahi - alo + 1` always suffices since each recursive
interval is strictly shorter. -/
def matchTotal (a b : List Char) : Nat → Nat → Nat → Nat → Nat → Nat
  | 0, _, _, _, _ => 0
  | fuel + 1, alo, ahi, blo, bhi =>
      let t := findLongestMatch a b alo ahi blo bhi
      if t.2.2 = 0 then 0
      else
        matchTotal a b fuel alo t.1 blo t.2.1 + t.2.2 +
          matchTotal a b fuel (t.1 + t.2.2) ahi (t.2.1 + t.2.2) bhi

/-- A similarity value, as the exact (unnormalized) fraction `num / den`.
Python's floats are modelled by the rational values they denote; all
comparisons the source performs on them are modelled by exact
cross-multiplication, which keeps every definition kernel-computable. -/
structure Sim where
  num : Nat
  den : Nat
deriving DecidableEq, Repr

/-- Strict comparison of similarity values (`a < b` on the denoted
rationals, for positive denominators). -/
def simLt (a b : Sim) : Prop := a.num * b.den < b.num * a.den

/-- Non-strict comparison of similarity values. -/
def simLe (a b : Sim) : Prop := a.num * b.den ≤ b.num * a.den

instance (a b : Sim) : Decidable (simLt a b) := by unfold simLt; infer_instance

instance (a b : Sim) : Decidable (simLe a b) := by unfold simLe; infer_instance

/-- The rational value denoted by a similarity fraction. -/
def simVal (a : Sim) : ℚ := (a.num : ℚ) / (a.den : ℚ)

/-- difflib `SequenceMatcher(None, a, b).ratio()`: `2·M / (|a| + |b|)` as an
exact fraction, and 1.0 when both sequences are empty. -/
def sequenceMatcherRatio (a b : List Char) : Sim :=
  if a.length + b.length = 0 then ⟨1, 1⟩
  else ⟨2 * matchTotal a b (a.length + 1) 0 a.length 0 b.length, a.length + b.length⟩

/-
Model of `find_best_match(text, pattern, cutoff)` (src/importer.py lines
393-442).  The exact-match fast path uses Python `pattern in text` /
`text.index(pattern)`; the fuzzy path slides word windows of sizes
`window_size - 1 .. window_size + 1` over the tokenized text, scores each
window with `SequenceMatcher.ratio`, refines the boundaries of a window's
character span, and keeps the strictly-best eligible candidate.
-/

/-- First offset (counted from the head of the remaining list) at which
`needle` occurs, scanning one position at a time exactly like the `while`
loops of `html_to_text_map`; returns the length of the list when there is
no occurrence (the loop exhausts). -/
def scanAux (needle : List Char) : List Char → Nat
  | [] => 0
  | c :: rest => if needle.isPrefixOf (c :: rest) then 0 else scanAux needle rest + 1

/-- Python `while html_pos < len(h): if h[html_pos:].startswith(needle):
break; html_pos += 1` starting from `pos`: the first position `≥ pos`
where `needle` occurs, or `len(h)` if none. -/
def scanFrom (html needle : List Char) (pos : Nat) : Nat :=
  pos + scanAux needle (html.drop pos)

/-- Python `pattern in text` / `text.index(pattern)` combined: the first
occurrence index of `p` in `t`, or `none`. -/
def subIndex (t p : List Char) : Option Nat :=
  match t with
  | [] => if p.isPrefixOf [] then some 0 else none
  | c :: rest => if p.isPrefixOf (c :: rest) then some 0 else (subIndex rest p).map (· + 1)

/-- Start-boundary refinement loop of `find_best_match`:
`while char_start_index > 0 and text[char_start_index - 1].isalnum():
char_start_index -= 1`. -/
def extendStart (t : List Char) : Nat → Nat
  | 0 => 0
  | n + 1 => if (t.getD n ' ').isAlphanum then extendStart t n else n + 1

/-- Fuel-bounded body of the end-boundary refinement loop of
`find_best_match`: `while char_end_index < len(text) and
text[char_end_index - 1].isalnum(): char_end_index += 1`.  The loop moves
right one step at a time, so `t.length - ce` fuel is exact: when the fuel
runs out the position has reached `t.length` and the guard is false
anyway. -/
def extendEndAux (t : List Char) : Nat → Nat → Nat
  | ce, 0 => ce
  | ce, fuel + 1 =>
      if ce < t.length ∧ (t.getD (ce - 1) ' ').isAlphanum then extendEndAux t (ce + 1) fuel
      else ce

/-- End-boundary refinement loop of `find_best_match`. -/
def extendEnd (t : List Char) (ce : Nat) : Nat := extendEndAux t ce (t.length - ce)

/-- Python `text_words[i:i+window]` where `window` may be `-1`, `0` or
positive (the variable window sizes of `find_best_match`); a negative
stop index counts from the end of the list, as in Python slicing, so
`window = -1` at `i = 0` yields every word but the last. -/
def pyCandWords (tw : List (List Char)) (i : Nat) (window : Int) : List (List Char) :=
  let stop : Int := (i : Int) + window
  let stopIdx : Nat := if stop < 0 then ((tw.length : Int) + stop).toNat else stop.toNat
  (tw.take stopIdx).drop i

/-- Character span `(char_start_index, char_end_index)` computed for the
window at word index `i` inside `find_best_match`'s update branch: a
prefix-join length start, the candidate length, then boundary
refinement.  The start is only extended when the window's first word does
not start with the pattern's first word. -/
def refineSpan (t : List Char) (tw : List (List Char)) (fw : List Char) (i : Nat)
    (cand : List Char) : Nat × Nat :=
  let pre := joinSpace (tw.take i)
  let cs0 := pre.length + (if 0 < i then 1 else 0)
  let ce0 := cs0 + cand.length
  let cs := if fw.isPrefixOf (tw.getD i []) then cs0 else extendStart t cs0
  (cs, extendEnd t ce0)

/-- The ordered list of `(ratio, char_start, char_end)` candidates that
`find_best_match`'s nested loops enumerate: window sizes
`window_size - 1, window_size, window_size + 1` (as Python ints, so `-1`
and `0` possible and yielding empty candidates), then every window start
`i`.  Spans are precomputed per candidate; the fold below only reads a
span when its ratio wins, exactly when the source computes it. -/
def fuzzyCandidates (t p : List Char) : List (Sim × Nat × Nat) :=
  let tw := splitWs t
  let pw := splitWs p
  let fw := pw.headD []
  let w : Int := pw.length
  (([w - 1, w, w + 1]).map (fun window =>
    (List.range (Int.toNat ((tw.length : Int) - window + 1))).map (fun i =>
      let cand := joinSpace (pyCandWords tw i window)
      let sp := refineSpan t tw fw i cand
      (sequenceMatcherRatio cand p, sp.1, sp.2)))).flatten

/-- One iteration of `find_best_match`'s candidate loop: replace the
incumbent best exactly when `ratio > best_ratio and ratio >= cutoff`
(strict improvement, so ties keep the earlier window). -/
def bestStep (cutoff : Sim) (st : Option (Nat × Nat) × Sim) (x : Sim × Nat × Nat) :
    Option (Nat × Nat) × Sim :=
  if simLt st.2 x.1 ∧ simLe cutoff x.1 then (some (x.2.1, x.2.2), x.1) else st

/-- `find_best_match(text, pattern, cutoff)`: returns the matched span (the
pair `(best_start_index, best_end_index)`, which the source always sets
together, `none` standing for Python's `None, None`) and the best ratio. -/
def find_best_match (t p : List Char) (cutoff : Sim) : Option (Nat × Nat) × Sim :=
  match subIndex t p with
  | some s => (some (s, s + p.length), ⟨1, 1⟩)
  | none => (fuzzyCandidates t p).foldl (bestStep cutoff) (none, ⟨0, 1⟩)

/-
Model of the markup documents consumed by `html_to_text_map` (lines
340-391).  The source parses an HTML string with BeautifulSoup and walks
the resulting tree; here a document is the tree itself (text nodes hold
the unescaped text exactly as BeautifulSoup's `NavigableString` does) and
the HTML string the source scans is its serialization `renderForest`.
Elements carry their tag, a raw attribute string, and children.
-/

mutual
inductive Node where
  | text (s : List Char) : Node
  | elem (tag : List Char) (attrs : List Char) (children : NodeList) : Node
inductive NodeList where
  | nil : NodeList
  | cons (n : Node) (ns : NodeList) : NodeList
end

mutual
/-- Serialization of one node: text is HTML-escaped (BeautifulSoup's
`NavigableString` holds unescaped text whose occurrence in the raw HTML
is the escaped form the source searches for via `escape(node_str)`). -/
def renderNode : Node → List Char
  | .text s => htmlEscape s
  | .elem tag attrs cs =>
      (lc ("<") ++ tag ++ attrs ++ lc (">")) ++ renderForest cs ++ (lc ("</") ++ tag ++ lc (">"))
/-- Serialization of a forest of sibling nodes. -/
def renderForest : NodeList → List Char
  | .nil => []
  | .cons n ns => renderNode n ++ renderForest ns
end

/-- Traversal state of `html_to_text_map`: accumulated plain text,
accumulated position map, and the forward cursor `html_pos`. -/
structure FlatSt where
  plain : List Char
  posMap : List Nat
  pos : Nat

/-- The `EXCLUDED_TAGS = {'style', 'script'}` membership test on the text
node's parent tag. -/
def excludedTag (parent : List Char) : Bool :=
  parent = lc ("style") || parent = lc ("script")

/-- Processing of one `NavigableString` inside `html_to_text_map`: skip
nodes under excluded tags (without advancing the cursor), advance the
cursor past whitespace-only nodes, and otherwise scan forward for the
escaped text (retrying with the stripped text when the first scan
exhausts the document), emitting one plain-text character and one
position-map entry per character of the node. -/
def flattenText (html parent s : List Char) (st : FlatSt) : FlatSt :=
  if excludedTag parent then st
  else if pyStrip s = [] then { st with pos := st.pos + s.length }
  else
    let p1 := scanFrom html (htmlEscape s) st.pos
    if p1 < html.length then
      ⟨st.plain ++ s, st.posMap ++ (List.range s.length).map (fun i => p1 + i), p1 + s.length⟩
    else
      let s2 := pyStrip s
      let p2 := scanFrom html (htmlEscape s2) st.pos
      ⟨st.plain ++ s2, st.posMap ++ (List.range s2.length).map (fun i => p2 + i), p2 + s2.length⟩

mutual
/-- `process_node` of `html_to_text_map` on a single node (the parent's tag
name is passed down for the excluded-tag test). -/
def flattenNode (html parent : List Char) : Node → FlatSt → FlatSt
  | .text s, st => flattenText html parent s st
  | .elem tag _ cs, st => flattenForest html tag cs st
/-- `process_node` of `html_to_text_map` over a node's children, in
document order. -/
def flattenForest (html parent : List Char) : NodeList → FlatSt → FlatSt
  | .nil, st => st
  | .cons n ns, st => flattenForest html parent ns (flattenNode html parent n st)
end

/-- `html_to_text_map(html_content)`: plain text and position map of a
document.  `html` is the raw source string the function receives and
scans, and `doc` is BeautifulSoup's parse of that same string (the tree
`process_node` walks); the root parent is BeautifulSoup's `[document]`.
The two arguments are kept separate because the raw source need not
spell characters the way `html.escape` does (a bare `>` in text, a bare
`&`), and the scans then exhaust — the canonical pairing is
`html = renderForest doc`. -/
def html_to_text_map (html : List Char) (doc : NodeList) : List Char × List Nat :=
  let st := flattenForest html (lc ("[document]")) doc ⟨[], [], 0⟩
  (st.plain, st.posMap)

/-
`find_markdown_in_html(html_content, markdown_content)` (lines 444-473).
The markdown-to-text normalization (`markdown.markdown` plus
`BeautifulSoup.get_text`) is an external-library step; the model takes
the already-normalized excerpt text `mdText` directly.  Python list
indexing `position_map[idx]` raises `IndexError` when out of range, which
the model returns as `Except.error ()`.
-/

/-- `find_markdown_in_html`: locate `mdText` in the flattened text of the
raw source `html` (whose BeautifulSoup parse is `doc`) at the default
cutoff 0.6, clamp the span endpoints into `[0, len(position_map) - 1]`
(computed over `Int`, as Python's `len(...) - 1` can be `-1`), and map
them through the position map to markup offsets, extracting the matching
substring of the raw source. -/
def find_markdown_in_html (html : List Char) (doc : NodeList) (mdText : List Char) :
    Except Unit (Option (List Char × Nat × Nat × Sim)) :=
  let tm := html_to_text_map html doc
  let fb := find_best_match tm.1 mdText ⟨3, 5⟩
  match fb.1 with
  | none => .ok none
  | some se =>
      let len1 : Int := (tm.2.length : Int) - 1
      let si := max 0 (min (se.1 : Int) len1)
      let ei := max 0 (min (se.2 : Int) len1)
      match tm.2[si.toNat]?, tm.2[ei.toNat]? with
      | some hs, some he => .ok (some (pySlice html hs he, hs, he, fb.2))
      | _, _ => .error ()

/-- The literal start marker `add_highlight_tag` inserts. -/
def hlStartTag : List Char := lc ("<span data-omnivore-highlight-start=\"true\"></span>")

/-- The literal end marker `add_highlight_tag` inserts. -/
def hlEndTag : List Char := lc ("<span data-omnivore-highlight-end=\"true\"></span>")

/-- `add_highlight_tag(content, highlight)` (lines 514-525): splice the two
marker spans around `content[start_index:end_index]`. -/
def add_highlight_tag (content : List Char) (si ei : Nat) : List Char :=
  content.take si ++ hlStartTag ++ pySlice content si ei ++ hlEndTag ++ content.drop ei

/-- Python `str.lower()` (ASCII case mapping suffices for this code base). -/
def pyLower (s : List Char) : List Char := s.map Char.toLower

/-- The local `similarity(a, b)` of `find_closest_match`:
`SequenceMatcher(None, a.lower(), b.lower()).ratio()`. -/
def similarity (a b : List Char) : Sim := sequenceMatcherRatio (pyLower a) (pyLower b)

/-- `find_closest_match(target, candidates)` (lines 498-512): Python
`max(candidates, key=...)`, which keeps the first-encountered maximal
element; an empty candidate list raises `ValueError`, modelled as
`Except.error ()`. -/
def find_closest_match (target : List Char) (candidates : List (List Char)) :
    Except Unit (List Char) :=
  match candidates with
  | [] => .error ()
  | c :: cs =>
      .ok (cs.foldl
        (fun best x => if simLt (similarity target best) (similarity target x) then x else best) c)

/-
Model of `parse_highlights_file` (lines 527-589).  The file argument is
`none` when the file is missing (`FileNotFoundError`), otherwise the file
content.  Python's truthiness tests on `result["article_note"]`,
`current_highlight` and `current_highlight["notes"]` are modelled
explicitly: a string is falsy when absent (`None`) or empty.
-/

/-- One parsed highlight record: quote text, label names, optional notes. -/
structure Highlight where
  quote : List Char
  labels : List (List Char)
  notes : Option (List Char)
deriving DecidableEq, Repr

/-- The result dict of `parse_highlights_file`. -/
structure ParseResult where
  article_note : Option (List Char)
  highlights : List Highlight
deriving DecidableEq, Repr

/-- Python truthiness of an optional string (`None` and `""` are falsy). -/
def strTruthy : Option (List Char) → Bool
  | none => false
  | some s => !(s = [])

/-- The lines of a block: `block.strip().split('\n')`. -/
def blockLines (b : List Char) : List (List Char) := splitNl (pyStrip b)

/-- The quote text built from a quote block:
`'\n'.join([x.lstrip('> ').strip() for x in lines])` — note that Python's
`lstrip('> ')` removes every leading character in the set `{'>', ' '}`. -/
def quoteOfBlock (b : List Char) : List Char :=
  joinNl ((blockLines b).map (fun x => pyStrip (x.dropWhile (fun c => c = '>' || c = ' '))))

/-- Head line of a block (Python `lines[0]`; `split` always returns a
non-empty list, so the default is never read). -/
def blockHead (b : List Char) : List Char := (blockLines b).headD []

/-- Python `s.startswith(c)` for a single-character marker. -/
def startsWithChar (c : Char) : List Char → Bool
  | x :: _ => x = c
  | [] => false

/-- Does the block open a new highlight record (`lines[0].startswith('>')`)? -/
def isQuoteBlock (b : List Char) : Bool := startsWithChar '>' (blockHead b)

/-- The loop body of `parse_highlights_file` for one block (the
`if/elif/else` over the first line's marker), threading the result record
and the current highlight. -/
def parseStep (st : ParseResult × Option Highlight) (b : List Char) :
    ParseResult × Option Highlight :=
  let res := st.1
  let cur := st.2
  let l0 := blockHead b
  if startsWithChar '>' l0 then
    let flushed : List Highlight :=
      match cur with
      | some ch => res.highlights ++ [ch]
      | none => res.highlights
    (⟨res.article_note, flushed⟩, some ⟨quoteOfBlock b, [], none⟩)
  else if startsWithChar '#' l0 then
    match cur with
    | some ch =>
        let label := pyStrip (l0.dropWhile (fun c => c = '#'))
        (res, some ⟨ch.quote, ch.labels ++ [label], ch.notes⟩)
    | none => (res, none)
  else
    match cur with
    | none =>
        if strTruthy res.article_note then
          (⟨some ((res.article_note.getD []) ++ lc ("\n\n") ++ pyStrip b), res.highlights⟩, cur)
        else (⟨some (pyStrip b), res.highlights⟩, cur)
    | some ch =>
        if strTruthy ch.notes then
          (res, some ⟨ch.quote, ch.labels, some ((ch.notes.getD []) ++ lc ("\n\n") ++ pyStrip b)⟩)
        else (res, some ⟨ch.quote, ch.labels, some (pyStrip b)⟩)

/-- `parse_highlights_file(file_path)`: a missing file yields the empty
result; otherwise split the stripped content into blocks on runs of two
or more newlines, process the blocks in order, and flush any remaining
current highlight. -/
def parse_highlights_file (file : Option (List Char)) : ParseResult :=
  match file with
  | none => ⟨none, []⟩
  | some content =>
      let blocks := splitBlocks (pyStrip content)
      let st := blocks.foldl parseStep (⟨none, []⟩, none)
      match st.2 with
      | some h => ⟨st.1.article_note, st.1.highlights ++ [h]⟩
      | none => st.1

/-- One iteration of the per-highlight loop of
`process_highlights_in_content` (lines 625-637): run the locator against
the current content, and insert the markers only when Python's truthiness
test `if highlight["start_index"]:` passes — i.e. the start offset is
neither `None` nor `0`.  The returned flag records whether the highlight
was placed (`false` prints the `Failed to import highlight` report). -/
def process_highlight_step (html : List Char) (doc : NodeList) (quote : List Char) :
    Except Unit (List Char × Bool) :=
  match find_markdown_in_html html doc quote with
  | .error e => .error e
  | .ok none => .ok (html, false)
  | .ok (some r) =>
      if r.2.1 ≠ 0 then .ok (add_highlight_tag html r.2.1 r.2.2.1, true)
      else .ok (html, false)

/-
Basic lemmas about the Python string helpers.
-/

/-
Specification-side description of what the flattener appends: the plain
text contributed by each node (nothing under excluded tags, nothing for
whitespace-only text, the node's text otherwise).
-/

mutual
/-- Plain text contributed by a single node during flattening. -/
def nodePlain (parent : List Char) : Node → List Char
  | .text s => if excludedTag parent then [] else if pyStrip s = [] then [] else s
  | .elem tag _ cs => forestPlain tag cs
/-- Plain text contributed by a forest of sibling nodes during flattening. -/
def forestPlain (parent : List Char) : NodeList → List Char
  | .nil => []
  | .cons n ns => nodePlain parent n ++ forestPlain parent ns
end

/-- The end-boundary loop as the claim words it: extend while the character
AT index `end` is alphanumeric (the source instead tests index
`end - 1`). -/
def specExtendEndAux (t : List Char) : Nat → Nat → Nat
  | ce, 0 => ce
  | ce, fuel + 1 =>
      if ce < t.length ∧ (t.getD ce ' ').isAlphanum then specExtendEndAux t (ce + 1) fuel
      else ce

/-- Claim-side end-boundary refinement (`while text[end].isalnum(): end += 1`). -/
def specExtendEnd (t : List Char) (ce : Nat) : Nat := specExtendEndAux t ce (t.length - ce)

/-- Final flush of `parse_highlights_file`: the highlight list after the
remaining current record (if any) is appended. -/
def flushHighlights (st : ParseResult × Option Highlight) : List Highlight :=
  match st.2 with
  | some h => st.1.highlights ++ [h]
  | none => st.1.highlights

/-- The per-line quote transformation exactly as the claim words it: strip
one leading `'>'` marker and one following space, then surrounding
whitespace. -/
def specQuoteLineStrip (l : List Char) : List Char :=
  pyStrip (match l with
    | '>' :: ' ' :: r => r
    | '>' :: r => r
    | r => r)

/-- The quote the claim prescribes for a block: each line through
`specQuoteLineStrip`, rejoined with line breaks. -/
def specQuoteOfBlock (b : List Char) : List Char :=
  joinNl ((blockLines b).map specQuoteLineStrip)

/-- The BeautifulSoup parse of `add_highlight_tag`'s output for a plain
text document: the prefix text, the start marker span, the highlighted
text, the end marker span, and the suffix text, as five sibling nodes
(empty text pieces parse to nothing and flatten to nothing, so they are
kept as empty text nodes without loss). -/
def injectedForest (s : List Char) (i j : Nat) : NodeList :=
  .cons (.text (s.take i))
    (.cons (.elem (lc ("span")) (lc (" data-omnivore-highlight-start=\"true\"")) .nil)
      (.cons (.text (pySlice s i j))
        (.cons (.elem (lc ("span")) (lc (" data-omnivore-highlight-end=\"true\"")) .nil)
          (.cons (.text (s.drop j)) .nil))))

theorem isPrefixOf_true_iff {l1 l2 : List Char} : l1.isPrefixOf l2 = true ↔ l1 <+: l2 :=
  List.isPrefixOf_iff_prefix

theorem pyStrip_nil : pyStrip [] = [] := rfl

theorem pyStrip_eq_nil_iff (s : List Char) : pyStrip s = [] ↔ s.all pyIsSpace = true := by
  unfold pyStrip
  rw [List.reverse_eq_nil_iff, List.dropWhile_eq_nil_iff, List.all_eq_true]
  constructor
  · intro h x hx
    have hx' : x ∈ s.takeWhile pyIsSpace ++ s.dropWhile pyIsSpace := by
      rw [List.takeWhile_append_dropWhile] ; exact hx
    rcases List.mem_append.mp hx' with h1 | h2
    · exact List.mem_takeWhile_imp h1
    · exact h x (List.mem_reverse.mpr h2)
  · intro h x hx
    exact h x ((List.dropWhile_sublist pyIsSpace).subset (List.mem_reverse.mp hx))

theorem escapeChar_of_plain (c : Char) (h : plainChar c = true) : escapeChar c = [c] := by
  unfold plainChar at h
  simp only [Bool.not_eq_true', Bool.or_eq_false_iff, decide_eq_false_iff_not] at h
  unfold escapeChar
  rw [if_neg h.1.1.1.1, if_neg h.1.1.1.2, if_neg h.1.1.2, if_neg h.1.2, if_neg h.2]

theorem pyIsSpace_plain (c : Char) (h : pyIsSpace c = true) : plainChar c = true := by
  unfold pyIsSpace at h
  simp only [Bool.or_eq_true, decide_eq_true_eq] at h
  rcases h with ((((h | h) | h) | h) | h) | h <;> subst h <;> decide

theorem htmlEscape_of_plain (s : List Char) (h : s.all plainChar = true) : htmlEscape s = s := by
  induction s with
  | nil => rfl
  | cons c cs ih =>
      rw [List.all_cons, Bool.and_eq_true] at h
      unfold htmlEscape at *
      simp only [List.map_cons, List.flatten_cons]
      rw [escapeChar_of_plain c h.1, ih h.2]
      rfl

theorem one_le_length_escapeChar (c : Char) : 1 ≤ (escapeChar c).length := by
  unfold escapeChar
  split
  · decide
  · split
    · decide
    · split
      · decide
      · split
        · decide
        · split
          · decide
          · simp

theorem length_le_htmlEscape (s : List Char) : s.length ≤ (htmlEscape s).length := by
  induction s with
  | nil => simp [htmlEscape]
  | cons c cs ih =>
      unfold htmlEscape at *
      simp only [List.map_cons, List.flatten_cons, List.length_append, List.length_cons]
      have := one_le_length_escapeChar c
      omega

theorem htmlEscape_ne_nil (s : List Char) (h : s ≠ []) : htmlEscape s ≠ [] := by
  intro hc
  have h1 : 0 < s.length := List.length_pos.mpr h
  have h2 := length_le_htmlEscape s
  rw [hc] at h2
  simp only [List.length_nil, Nat.le_zero] at h2
  omega

theorem pyStrip_ne_nil_of_mem (s : List Char) (c : Char) (hc : c ∈ s)
    (hns : pyIsSpace c = false) : pyStrip s ≠ [] := by
  intro h
  rw [pyStrip_eq_nil_iff, List.all_eq_true] at h
  have := h c hc
  rw [hns] at this
  exact Bool.false_ne_true this

/-
Lemmas about the forward scanning loops and Python substring search.
-/

theorem scanAux_spec (needle : List Char) (hne : needle ≠ []) :
    ∀ (l : List Char) (j : Nat), needle <+: l.drop j →
      scanAux needle l ≤ j ∧ needle <+: l.drop (scanAux needle l)
  | [], j, h => by
      exfalso
      rw [List.drop_nil] at h
      exact hne (List.prefix_nil.mp h)
  | c :: rest, j, h => by
      unfold scanAux
      by_cases hp : needle.isPrefixOf (c :: rest)
      · rw [if_pos hp]
        exact ⟨Nat.zero_le j, by simpa using isPrefixOf_true_iff.mp hp⟩
      · rw [if_neg hp]
        match j with
        | 0 =>
            exact absurd (isPrefixOf_true_iff.mpr (by simpa using h)) hp
        | j + 1 =>
            have h' : needle <+: rest.drop j := by simpa using h
            have ih := scanAux_spec needle hne rest j h'
            exact ⟨Nat.succ_le_succ ih.1, by simpa using ih.2⟩

theorem scanFrom_spec (html needle : List Char) (pos k : Nat) (hpk : pos ≤ k)
    (h : needle <+: html.drop k) (hne : needle ≠ []) :
    scanFrom html needle pos ≤ k ∧ needle <+: html.drop (scanFrom html needle pos) := by
  have hdd : needle <+: (html.drop pos).drop (k - pos) := by
    rw [List.drop_drop]
    have : pos + (k - pos) = k := by omega
    rw [this]
    exact h
  obtain ⟨h1, h2⟩ := scanAux_spec needle hne (html.drop pos) (k - pos) hdd
  refine ⟨by unfold scanFrom; omega, ?_⟩
  unfold scanFrom
  rw [← List.drop_drop]
  exact h2

theorem prefix_drop_append (l a b : List Char) (k : Nat) (h : a ++ b <+: l.drop k) :
    b <+: l.drop (k + a.length) := by
  obtain ⟨t, ht⟩ := h
  refine ⟨t, ?_⟩
  rw [← List.drop_drop]
  rw [← ht, List.append_assoc, List.drop_left]

theorem prefix_drop_length_le (l needle : List Char) (p : Nat) (h : needle <+: l.drop p)
    (hne : needle ≠ []) : p + needle.length ≤ l.length := by
  have h1 := h.length_le
  rw [List.length_drop] at h1
  have h2 : 0 < needle.length := List.length_pos.mpr hne
  omega

theorem subIndex_spec (p : List Char) :
    ∀ (t : List Char) (i : Nat), subIndex t p = some i →
      p <+: t.drop i ∧ ∀ j, j < i → ¬ p <+: t.drop j
  | [], i, h => by
      unfold subIndex at h
      by_cases hp : p.isPrefixOf ([] : List Char)
      · rw [if_pos hp] at h
        cases h
        exact ⟨by simpa using isPrefixOf_true_iff.mp hp, fun j hj => by omega⟩
      · rw [if_neg hp] at h
        cases h
  | c :: rest, i, h => by
      unfold subIndex at h
      by_cases hp : p.isPrefixOf (c :: rest)
      · rw [if_pos hp] at h
        cases h
        exact ⟨by simpa using isPrefixOf_true_iff.mp hp, fun j hj => by omega⟩
      · rw [if_neg hp] at h
        rw [Option.map_eq_some'] at h
        obtain ⟨i', hi', rfl⟩ := h
        obtain ⟨ih1, ih2⟩ := subIndex_spec p rest i' hi'
        refine ⟨by simpa using ih1, ?_⟩
        intro j hj
        match j with
        | 0 =>
            intro hpre
            exact hp (isPrefixOf_true_iff.mpr (by simpa using hpre))
        | j + 1 =>
            intro hpre
            exact ih2 j (by omega) (by simpa using hpre)

theorem subIndex_exists (p : List Char) :
    ∀ (t : List Char) (i : Nat), p <+: t.drop i → ∃ i0, subIndex t p = some i0
  | [], i, h => by
      rw [List.drop_nil] at h
      rw [List.prefix_nil.mp h]
      exact ⟨0, rfl⟩
  | c :: rest, i, h => by
      unfold subIndex
      by_cases hp : p.isPrefixOf (c :: rest)
      · rw [if_pos hp]
        exact ⟨0, rfl⟩
      · rw [if_neg hp]
        match i with
        | 0 =>
            exact absurd (isPrefixOf_true_iff.mpr (by simpa using h)) hp
        | i + 1 =>
            obtain ⟨i0, hi0⟩ := subIndex_exists p rest i (by simpa using h)
            exact ⟨i0 + 1, by rw [hi0]; rfl⟩

theorem find_best_match_exact (t p : List Char) (c : Sim) (h : ∃ i, p <+: t.drop i) :
    ∃ s0, find_best_match t p c = (some (s0, s0 + p.length), ⟨1, 1⟩) ∧ p <+: t.drop s0 ∧
      ∀ j, j < s0 → ¬ p <+: t.drop j := by
  obtain ⟨i, hi⟩ := h
  obtain ⟨i0, hi0⟩ := subIndex_exists p t i hi
  obtain ⟨h1, h2⟩ := subIndex_spec p t i0 hi0
  refine ⟨i0, ?_, h1, h2⟩
  unfold find_best_match
  rw [hi0]

theorem flattenText_spec (html parent s : List Char) (st : FlatSt) (k : Nat)
    (hpos : st.pos ≤ k) (hpre : htmlEscape s <+: html.drop k) :
    (flattenText html parent s st).pos ≤ k + (htmlEscape s).length ∧
    (flattenText html parent s st).plain = st.plain ++ nodePlain parent (.text s) ∧
    (flattenText html parent s st).posMap.length
      = st.posMap.length + (nodePlain parent (.text s)).length ∧
    ∀ m ∈ (flattenText html parent s st).posMap, m ∈ st.posMap ∨ m < html.length := by
  unfold flattenText
  by_cases hex : excludedTag parent = true
  · rw [if_pos hex]
    simp only [nodePlain, if_pos hex]
    exact ⟨by omega, by simp, by simp, fun m hm => Or.inl hm⟩
  · rw [if_neg hex]
    by_cases hws : pyStrip s = []
    · rw [if_pos hws]
      have hesc : htmlEscape s = s := by
        apply htmlEscape_of_plain
        rw [pyStrip_eq_nil_iff, List.all_eq_true] at hws
        rw [List.all_eq_true]
        exact fun x hx => pyIsSpace_plain x (hws x hx)
      simp only [nodePlain, if_neg hex, if_pos hws]
      refine ⟨?_, by simp, by simp, fun m hm => Or.inl hm⟩
      simp only [hesc]
      omega
    · rw [if_neg hws]
      have hsne : s ≠ [] := by
        intro hs
        exact hws (by rw [hs] ; rfl)
      have hene : htmlEscape s ≠ [] := htmlEscape_ne_nil s hsne
      obtain ⟨hle, hpre2⟩ := scanFrom_spec html (htmlEscape s) st.pos k hpos hpre hene
      have hbound : scanFrom html (htmlEscape s) st.pos + (htmlEscape s).length ≤ html.length :=
        prefix_drop_length_le html (htmlEscape s) _ hpre2 hene
      have hp1lt : scanFrom html (htmlEscape s) st.pos < html.length := by
        have h1 : 0 < (htmlEscape s).length := List.length_pos.mpr hene
        omega
      rw [if_pos hp1lt]
      have hlen := length_le_htmlEscape s
      simp only [nodePlain, if_neg hex, if_neg hws]
      refine ⟨by omega, by simp, ?_, ?_⟩
      · simp
      · intro m hm
        rcases List.mem_append.mp hm with h1 | h2
        · exact Or.inl h1
        · obtain ⟨i, hi, rfl⟩ := List.mem_map.mp h2
          rw [List.mem_range] at hi
          exact Or.inr (by omega)

mutual
theorem flattenNode_spec (html : List Char) :
    ∀ (n : Node) (parent : List Char) (st : FlatSt) (k : Nat),
      st.pos ≤ k → renderNode n <+: html.drop k →
      (flattenNode html parent n st).pos ≤ k + (renderNode n).length ∧
      (flattenNode html parent n st).plain = st.plain ++ nodePlain parent n ∧
      (flattenNode html parent n st).posMap.length
        = st.posMap.length + (nodePlain parent n).length ∧
      ∀ m ∈ (flattenNode html parent n st).posMap, m ∈ st.posMap ∨ m < html.length
  | .text s, parent, st, k, h1, h2 => by
      have h2' : htmlEscape s <+: html.drop k := by
        simpa only [renderNode] using h2
      have hmain := flattenText_spec html parent s st k h1 h2'
      simpa only [flattenNode, renderNode] using hmain
  | .elem tag attrs cs, parent, st, k, h1, h2 => by
      have h2' : (lc ("<") ++ tag ++ attrs ++ lc (">")) ++
          (renderForest cs ++ (lc ("</") ++ tag ++ lc (">"))) <+: html.drop k := by
        simpa only [renderNode, List.append_assoc] using h2
      have hrfc : renderForest cs ++ (lc ("</") ++ tag ++ lc (">")) <+:
          html.drop (k + (lc ("<") ++ tag ++ attrs ++ lc (">")).length) :=
        prefix_drop_append html _ _ k h2'
      have hrf : renderForest cs <+:
          html.drop (k + (lc ("<") ++ tag ++ attrs ++ lc (">")).length) :=
        (List.prefix_append _ _).trans hrfc
      have h1' : st.pos ≤ k + (lc ("<") ++ tag ++ attrs ++ lc (">")).length := by omega
      have hrec := flattenForest_spec html cs tag st
        (k + (lc ("<") ++ tag ++ attrs ++ lc (">")).length) h1' hrf
      have hlen : (k + (lc ("<") ++ tag ++ attrs ++ lc (">")).length)
          + (renderForest cs).length ≤ k + (renderNode (.elem tag attrs cs)).length := by
        simp only [renderNode, List.length_append]
        omega
      refine ⟨by have := hrec.1 ; simp only [flattenNode] ; omega, ?_, ?_, ?_⟩
      · simpa only [flattenNode, nodePlain] using hrec.2.1
      · simpa only [flattenNode, nodePlain] using hrec.2.2.1
      · simpa only [flattenNode, nodePlain] using hrec.2.2.2
theorem flattenForest_spec (html : List Char) :
    ∀ (ns : NodeList) (parent : List Char) (st : FlatSt) (k : Nat),
      st.pos ≤ k → renderForest ns <+: html.drop k →
      (flattenForest html parent ns st).pos ≤ k + (renderForest ns).length ∧
      (flattenForest html parent ns st).plain = st.plain ++ forestPlain parent ns ∧
      (flattenForest html parent ns st).posMap.length
        = st.posMap.length + (forestPlain parent ns).length ∧
      ∀ m ∈ (flattenForest html parent ns st).posMap, m ∈ st.posMap ∨ m < html.length
  | .nil, parent, st, k, h1, h2 => by
      refine ⟨?_, by simp [flattenForest, forestPlain], by simp [flattenForest, forestPlain],
        fun m hm => Or.inl hm⟩
      simp only [flattenForest, renderForest, List.length_nil]
      omega
  | .cons n ns, parent, st, k, h1, h2 => by
      have hn := flattenNode_spec html n parent st k h1 ((List.prefix_append _ _).trans h2)
      have hns_pre : renderForest ns <+: html.drop (k + (renderNode n).length) :=
        prefix_drop_append html _ _ k h2
      have hns := flattenForest_spec html ns parent (flattenNode html parent n st)
        (k + (renderNode n).length) hn.1 hns_pre
      refine ⟨?_, ?_, ?_, ?_⟩
      · have := hns.1
        simp only [flattenForest, renderForest, List.length_append]
        simp only [flattenForest] at this
        omega
      · have := hns.2.1
        simp only [flattenForest, forestPlain]
        simp only [flattenForest] at this
        rw [this, hn.2.1, List.append_assoc]
      · have := hns.2.2.1
        simp only [flattenForest, forestPlain, List.length_append]
        simp only [flattenForest] at this
        rw [this, hn.2.2.1]
        omega
      · intro m hm
        simp only [flattenForest] at hm
        rcases hns.2.2.2 m hm with hin | hlt
        · rcases hn.2.2.2 m hin with hin2 | hlt2
          · exact Or.inl hin2
          · exact Or.inr hlt2
        · exact Or.inr hlt
end

mutual
theorem flattenNode_len (html parent : List Char) :
    ∀ (n : Node) (st : FlatSt), st.posMap.length = st.plain.length →
      (flattenNode html parent n st).posMap.length = (flattenNode html parent n st).plain.length
  | .text s, st, h => by
      show (flattenText html parent s st).posMap.length = (flattenText html parent s st).plain.length
      unfold flattenText
      by_cases hex : excludedTag parent = true
      · rw [if_pos hex]
        exact h
      · rw [if_neg hex]
        by_cases hws : pyStrip s = []
        · rw [if_pos hws]
          exact h
        · rw [if_neg hws]
          by_cases hlt : scanFrom html (htmlEscape s) st.pos < html.length
          · rw [if_pos hlt]
            simp [h]
          · rw [if_neg hlt]
            simp [h]
  | .elem tag attrs cs, st, h => flattenForest_len html tag cs st h
theorem flattenForest_len (html parent : List Char) :
    ∀ (ns : NodeList) (st : FlatSt), st.posMap.length = st.plain.length →
      (flattenForest html parent ns st).posMap.length
        = (flattenForest html parent ns st).plain.length
  | .nil, st, h => h
  | .cons n ns, st, h =>
      flattenForest_len html parent ns (flattenNode html parent n st)
        (flattenNode_len html parent n st h)
end

/-- C2 (amended).  The length half of the position-map invariant holds
unconditionally: for every raw source string and parse tree,
`html_to_text_map` returns as many map entries as plain-text characters.
The valid-index half holds whenever every forward scan finds its escaped
text — in particular whenever the raw source is the document's
canonically escaped serialization `renderForest doc` — but not for every
source string: when the source spells a character differently from
`html.escape` (a bare `>` or `&` in text), both scans exhaust and the
code emits out-of-range entries `len(source) + i` (see the
counterexample). -/
theorem C2_position_map_amended :
    (∀ (html : List Char) (doc : NodeList),
      (html_to_text_map html doc).2.length = (html_to_text_map html doc).1.length) ∧
    (∀ doc : NodeList,
      (html_to_text_map (renderForest doc) doc).2.all
        (fun m => decide (m < (renderForest doc).length)) = true) := by
  constructor
  · intro html doc
    exact flattenForest_len html (lc ("[document]")) doc ⟨[], [], 0⟩ rfl
  · intro doc
    have h := flattenForest_spec (renderForest doc) doc (lc ("[document]")) ⟨[], [], 0⟩ 0
      (Nat.le_refl 0) (by rw [List.drop_zero])
    rw [List.all_eq_true]
    intro m hm
    have hm' : m ∈ (flattenForest (renderForest doc) (lc ("[document]")) doc ⟨[], [], 0⟩).posMap :=
      hm
    rcases h.2.2.2 m hm' with h1 | h2
    · simp at h1
    · simpa using h2

/-- C2, counterexample to the claim as stated.  BeautifulSoup parses the
source `"a > b"` into the single text node `"a > b"`, but
`escape("a > b") = "a &gt; b"` occurs nowhere in the raw source, so both
forward scans exhaust at `len(source)` and the mapping loop emits the
entries `len(source) + i`: every position-map entry (starting with 5) is
out of range for the 5-character source. -/
theorem C2_position_map_counterexample :
    (html_to_text_map (lc ("a > b")) (.cons (.text (lc ("a > b"))) .nil)).2
      = [5, 6, 7, 8, 9] ∧
    (lc ("a > b")).length = 5 ∧
    ¬ ((html_to_text_map (lc ("a > b")) (.cons (.text (lc ("a > b"))) .nil)).2.all
        (fun m => decide (m < (lc ("a > b")).length)) = true) := by
  refine ⟨by decide, by decide, by decide⟩

theorem html_to_text_map_pure (s : List Char) (h1 : s.all plainChar = true)
    (h2 : pyStrip s ≠ []) :
    html_to_text_map s (.cons (.text s) .nil) = (s, List.range s.length) := by
  have hsne : s ≠ [] := fun hs => h2 (by rw [hs] ; rfl)
  have hesc : htmlEscape s = s := htmlEscape_of_plain s h1
  have hslen : 0 < s.length := List.length_pos.mpr hsne
  have hscan : scanFrom s s 0 = 0 := by
    unfold scanFrom
    rw [List.drop_zero]
    cases s with
    | nil => exact absurd rfl hsne
    | cons c cs =>
        unfold scanAux
        rw [if_pos (isPrefixOf_true_iff.mpr (List.prefix_refl _))]
  have hstep : flattenText s (lc ("[document]")) s ⟨[], [], 0⟩
      = ⟨s, List.range s.length, s.length⟩ := by
    unfold flattenText
    rw [if_neg (by decide : ¬ excludedTag (lc ("[document]")) = true), if_neg h2]
    simp only [hesc, hscan, List.nil_append, Nat.zero_add]
    rw [if_pos hslen]
    simp
  have key : html_to_text_map s (.cons (.text s) .nil)
      = ((flattenText s (lc ("[document]")) s ⟨[], [], 0⟩).plain,
         (flattenText s (lc ("[document]")) s ⟨[], [], 0⟩).posMap) := rfl
  rw [key, hstep]

theorem prefix_drop_slice (s S : List Char) (idx : Nat) (h : S <+: s.drop idx) :
    pySlice s idx (idx + S.length) = S := by
  unfold pySlice
  rw [List.drop_take]
  have hl : idx + S.length - idx = S.length := by omega
  rw [hl]
  obtain ⟨t, ht⟩ := h
  rw [← ht, List.take_left]

theorem find_markdown_in_html_pure (s S : List Char) (idx : Nat)
    (h1 : s.all plainChar = true) (h2 : pyStrip S ≠ [])
    (hsub : subIndex s S = some idx) (hlt : idx + S.length < s.length) :
    find_markdown_in_html s (.cons (.text s) .nil) S
      = .ok (some (S, idx, idx + S.length, ⟨1, 1⟩)) := by
  have hSpre : S <+: s.drop idx := (subIndex_spec S s idx hsub).1
  have hstrip : pyStrip s ≠ [] := by
    have hSc : ∃ c ∈ S, pyIsSpace c = false := by
      by_contra hco
      push_neg at hco
      apply h2
      rw [pyStrip_eq_nil_iff, List.all_eq_true]
      intro c hc
      have := hco c hc
      revert this
      cases pyIsSpace c <;> simp
    obtain ⟨c, hcS, hcns⟩ := hSc
    have hcs : c ∈ s := by
      obtain ⟨t, ht⟩ := hSpre
      have : c ∈ s.drop idx := by rw [← ht] ; exact List.mem_append.mpr (Or.inl hcS)
      exact List.mem_of_mem_drop this
    exact pyStrip_ne_nil_of_mem s c hcs hcns
  have htm := html_to_text_map_pure s h1 hstrip
  have hfb : find_best_match s S ⟨3, 5⟩ = (some (idx, idx + S.length), ⟨1, 1⟩) := by
    unfold find_best_match
    rw [hsub]
  have hmin1 : min (idx : Int) ((List.range s.length).length - 1) = (idx : Int) := by
    rw [List.length_range]
    apply min_eq_left
    omega
  have hmin2 : min ((idx + S.length : Nat) : Int) ((List.range s.length).length - 1)
      = ((idx + S.length : Nat) : Int) := by
    rw [List.length_range]
    apply min_eq_left
    push_cast
    omega
  have hmax1 : max 0 (idx : Int) = (idx : Int) := max_eq_right (by omega)
  have hmax2 : max 0 ((idx + S.length : Nat) : Int) = ((idx + S.length : Nat) : Int) :=
    max_eq_right (by positivity)
  have hget1 : (List.range s.length)[((idx : Int)).toNat]? = some idx := by
    rw [Int.toNat_natCast]
    exact List.getElem?_range (by omega)
  have hget2 : (List.range s.length)[(((idx + S.length : Nat) : Int)).toNat]? =
      some (idx + S.length) := by
    rw [Int.toNat_natCast]
    exact List.getElem?_range (by omega)
  show (let tm := html_to_text_map s (.cons (.text s) .nil)
        let fb := find_best_match tm.1 S ⟨3, 5⟩
        match fb.1 with
        | none => Except.ok none
        | some se =>
            let len1 : Int := (tm.2.length : Int) - 1
            let si := max 0 (min (se.1 : Int) len1)
            let ei := max 0 (min (se.2 : Int) len1)
            match tm.2[si.toNat]?, tm.2[ei.toNat]? with
            | some hs, some he =>
                Except.ok (some (pySlice s hs he, hs, he, fb.2))
            | _, _ => Except.error ()) = Except.ok (some (S, idx, idx + S.length, ⟨1, 1⟩))
  rw [htm]
  simp only [hfb]
  rw [hmin1, hmin2, hmax1, hmax2, hget1, hget2]
  show Except.ok (some (pySlice s idx (idx + S.length), idx, idx + S.length,
    (⟨1, 1⟩ : Sim))) = _
  rw [prefix_drop_slice s S idx hSpre]

/-- C1 (amended).  Locating a literal substring `S` of the flattened plain
text always takes the exact-match fast path: `find_best_match` returns
ratio exactly 1.0 and the span of the first occurrence of `S` (first
conjunct, for every text and pattern).  The re-flattening half of the
round trip does not hold in general (see the counterexample); it does
hold when the document is a single text node of escape-free text and the
occurrence ends strictly before the end of the text: the remapped markup
substring is exactly `S`, and re-flattening `S` as a document reproduces
`S` (second conjunct). -/
theorem C1_round_trip_amended :
    (∀ (t p : List Char) (c : Sim), (∃ i, p <+: t.drop i) →
      ∃ s0, find_best_match t p c = (some (s0, s0 + p.length), ⟨1, 1⟩) ∧ p <+: t.drop s0 ∧
        ∀ j, j < s0 → ¬ p <+: t.drop j) ∧
    (∀ (s S : List Char) (idx : Nat), s.all plainChar = true → pyStrip S ≠ [] →
      subIndex s S = some idx → idx + S.length < s.length →
      find_markdown_in_html s (.cons (.text s) .nil) S
        = .ok (some (S, idx, idx + S.length, ⟨1, 1⟩)) ∧
      (html_to_text_map S (.cons (.text S) .nil)).1 = S) :=
  ⟨fun t p c h => find_best_match_exact t p c h,
   fun s S idx h1 h2 hsub hlt => by
    refine ⟨find_markdown_in_html_pure s S idx h1 h2 hsub hlt, ?_⟩
    have hSplain : S.all plainChar = true := by
      rw [List.all_eq_true] at h1 ⊢
      intro c hc
      have hSpre : S <+: s.drop idx := (subIndex_spec S s idx hsub).1
      obtain ⟨t, ht⟩ := hSpre
      have hcs : c ∈ s := List.mem_of_mem_drop (l := s) (n := idx)
        (by rw [← ht] ; exact List.mem_append.mpr (Or.inl hc))
      exact h1 c hcs
    rw [html_to_text_map_pure S hSplain h2]⟩

/-- C1, counterexample to the claim as stated.  For the document consisting
of the single text `"ab"` and the literal substring `S = "ab"` of its
flattened text, the locator does return ratio 1.0 at the first
occurrence, but the remapped span is clamped to `len(position_map) - 1`,
so the extracted markup substring is only `"a"`, which re-flattens to
`"a" ≠ "ab"`: the round trip drops the final character whenever the
substring extends to the end of the flattened text. -/
theorem C1_round_trip_counterexample :
    find_markdown_in_html (lc ("ab")) (.cons (.text (lc ("ab"))) .nil) (lc ("ab"))
      = .ok (some (lc ("a"), 0, 1, ⟨1, 1⟩)) ∧
    (html_to_text_map (lc ("a")) (.cons (.text (lc ("a"))) .nil)).1 = lc ("a") ∧
    lc ("a") ≠ lc ("ab") :=
  ⟨rfl, by decide, by decide⟩

/-- Witness for `C1_round_trip_amended`: both conjuncts applied at concrete
inputs, with every hypothesis discharged by `decide`. -/
theorem C1_round_trip_amended_witness :
    (∃ s0, find_best_match (lc ("abc")) (lc ("b")) ⟨3, 5⟩
        = (some (s0, s0 + (lc ("b")).length), ⟨1, 1⟩) ∧
      lc ("b") <+: (lc ("abc")).drop s0 ∧
      ∀ j, j < s0 → ¬ lc ("b") <+: (lc ("abc")).drop j) ∧
    (find_markdown_in_html (lc ("hello world")) (.cons (.text (lc ("hello world"))) .nil)
          (lc ("ello"))
        = .ok (some (lc ("ello"), 1, 5, ⟨1, 1⟩)) ∧
      (html_to_text_map (lc ("ello")) (.cons (.text (lc ("ello"))) .nil)).1 = lc ("ello")) :=
  ⟨C1_round_trip_amended.1 (lc ("abc")) (lc ("b")) ⟨3, 5⟩ ⟨1, by decide⟩,
   by
    have h := C1_round_trip_amended.2 (lc ("hello world")) (lc ("ello")) 1
      (by decide) (by decide) (by decide) (by decide)
    simpa using h⟩

/-
Order lemmas for similarity fractions: with positive denominators the
cross-multiplication comparisons agree with the comparisons of the
denoted rational values.
-/

theorem simVal_nonneg (a : Sim) : 0 ≤ simVal a := by
  unfold simVal
  positivity

theorem simLt_iff (a b : Sim) (ha : 0 < a.den) (hb : 0 < b.den) :
    simLt a b ↔ simVal a < simVal b := by
  unfold simLt simVal
  rw [div_lt_div_iff₀ (by exact_mod_cast ha) (by exact_mod_cast hb)]
  exact ⟨fun h => by exact_mod_cast h, fun h => by exact_mod_cast h⟩

theorem simLe_iff (a b : Sim) (ha : 0 < a.den) (hb : 0 < b.den) :
    simLe a b ↔ simVal a ≤ simVal b := by
  unfold simLe simVal
  rw [div_le_div_iff₀ (by exact_mod_cast ha) (by exact_mod_cast hb)]
  exact ⟨fun h => by exact_mod_cast h, fun h => by exact_mod_cast h⟩

theorem ratio_den_pos (a b : List Char) : 0 < (sequenceMatcherRatio a b).den := by
  unfold sequenceMatcherRatio
  split
  · decide
  · simp only []
    omega

theorem fuzzyCandidates_den_pos (t p : List Char) :
    ∀ x ∈ fuzzyCandidates t p, 0 < x.1.den := by
  intro x hx
  unfold fuzzyCandidates at hx
  simp only [List.mem_flatten, List.mem_map] at hx
  obtain ⟨l, ⟨w, hw, rfl⟩, hx2⟩ := hx
  obtain ⟨i, hi, rfl⟩ := List.mem_map.mp hx2
  exact ratio_den_pos _ _

/-- Two runs of `find_best_match`'s candidate fold with cutoffs
`c1 ≤ c2`: whatever the lower-cutoff run has that the higher-cutoff run
does not is below `c2`, so a span reported under `c2` is reported
identically under `c1`. -/
theorem bestFold_invariant (c1 c2 : Sim) (hd1 : 0 < c1.den) (hd2 : 0 < c2.den)
    (hc : simLe c1 c2) :
    ∀ (l : List (Sim × Nat × Nat)) (st1 st2 : Option (Nat × Nat) × Sim),
      (∀ x ∈ l, 0 < x.1.den) → 0 < st1.2.den →
      simVal st2.2 ≤ simVal st1.2 →
      (simVal c2 ≤ simVal st1.2 → st1 = st2) →
      (simVal st1.2 < simVal c2 → st2 = (none, ⟨0, 1⟩)) →
      0 < (l.foldl (bestStep c1) st1).2.den ∧
      simVal (l.foldl (bestStep c2) st2).2 ≤ simVal (l.foldl (bestStep c1) st1).2 ∧
      (simVal c2 ≤ simVal (l.foldl (bestStep c1) st1).2 →
        l.foldl (bestStep c1) st1 = l.foldl (bestStep c2) st2) ∧
      (simVal (l.foldl (bestStep c1) st1).2 < simVal c2 →
        l.foldl (bestStep c2) st2 = (none, ⟨0, 1⟩))
  | [], st1, st2, hxs, hden1, hle, heq, hnone => ⟨hden1, hle, heq, hnone⟩
  | x :: xs, st1, st2, hxs, hden1, hle, heq, hnone => by
      have hdx : 0 < x.1.den := hxs x (List.mem_cons_self x xs)
      have hxs' : ∀ y ∈ xs, 0 < y.1.den := fun y hy => hxs y (List.mem_cons_of_mem x hy)
      have hvc : simVal c1 ≤ simVal c2 := (simLe_iff c1 c2 hd1 hd2).mp hc
      have hden2 : 0 < st2.2.den := by
        rcases lt_or_le (simVal st1.2) (simVal c2) with h | h
        · rw [hnone h]
          decide
        · rw [← heq h]
          exact hden1
      have step1 : ∀ (st : Option (Nat × Nat) × Sim) (c : Sim),
          (simLt st.2 x.1 ∧ simLe c x.1) →
          bestStep c st x = (some (x.2.1, x.2.2), x.1) := by
        intro st c h
        unfold bestStep
        rw [if_pos h]
      have step2 : ∀ (st : Option (Nat × Nat) × Sim) (c : Sim),
          ¬ (simLt st.2 x.1 ∧ simLe c x.1) →
          bestStep c st x = st := by
        intro st c h
        unfold bestStep
        rw [if_neg h]
      simp only [List.foldl_cons]
      by_cases hxc2 : simVal c2 ≤ simVal x.1
      · by_cases hx1 : simVal st1.2 < simVal x.1
        · have hb1 : bestStep c1 st1 x = (some (x.2.1, x.2.2), x.1) :=
            step1 st1 c1 ⟨(simLt_iff st1.2 x.1 hden1 hdx).mpr hx1,
              (simLe_iff c1 x.1 hd1 hdx).mpr (le_trans hvc hxc2)⟩
          have hb2 : bestStep c2 st2 x = (some (x.2.1, x.2.2), x.1) :=
            step1 st2 c2 ⟨(simLt_iff st2.2 x.1 hden2 hdx).mpr (lt_of_le_of_lt hle hx1),
              (simLe_iff c2 x.1 hd2 hdx).mpr hxc2⟩
          rw [hb1, hb2]
          exact bestFold_invariant c1 c2 hd1 hd2 hc xs _ _ hxs' hdx (le_refl _)
            (fun _ => rfl) (fun habs => absurd hxc2 (not_le.mpr habs))
        · have hc2v1 : simVal c2 ≤ simVal st1.2 := by
            push_neg at hx1
            exact le_trans hxc2 hx1
          have hb1 : bestStep c1 st1 x = st1 := step2 st1 c1 (by
            intro h
            exact hx1 ((simLt_iff st1.2 x.1 hden1 hdx).mp h.1))
          have hst12 : st1 = st2 := heq hc2v1
          have hb2 : bestStep c2 st2 x = st2 := step2 st2 c2 (by
            intro h
            rw [← hst12] at h
            exact hx1 ((simLt_iff st1.2 x.1 hden1 hdx).mp h.1))
          rw [hb1, hb2]
          exact bestFold_invariant c1 c2 hd1 hd2 hc xs st1 st2 hxs' hden1 hle heq hnone
      · push_neg at hxc2
        have hb2 : bestStep c2 st2 x = st2 := step2 st2 c2 (by
          intro h
          exact absurd ((simLe_iff c2 x.1 hd2 hdx).mp h.2) (not_le.mpr hxc2))
        by_cases hup : simLt st1.2 x.1 ∧ simLe c1 x.1
        · have hb1 : bestStep c1 st1 x = (some (x.2.1, x.2.2), x.1) := step1 st1 c1 hup
          have hv1 : simVal st1.2 < simVal x.1 := (simLt_iff st1.2 x.1 hden1 hdx).mp hup.1
          have hst2 : st2 = (none, ⟨0, 1⟩) := hnone (lt_trans hv1 hxc2)
          rw [hb1, hb2, hst2]
          refine bestFold_invariant c1 c2 hd1 hd2 hc xs _ _ hxs' hdx ?_
            (fun habs => absurd habs (not_le.mpr hxc2)) (fun _ => rfl)
          calc simVal (⟨0, 1⟩ : Sim) = 0 := by unfold simVal ; norm_num
            _ ≤ simVal x.1 := simVal_nonneg x.1
        · have hb1 : bestStep c1 st1 x = st1 := step2 st1 c1 hup
          rw [hb1, hb2]
          exact bestFold_invariant c1 c2 hd1 hd2 hc xs st1 st2 hxs' hden1 hle heq hnone

/-- C7.  Cutoff monotonicity: if `find_best_match` with the higher cutoff
`c2` reports a span, then with any lower cutoff `c1 ≤ c2` it reports a
span with identical start and end offsets.  Cutoffs denote Python floats,
so their fraction representations carry positive denominators. -/
theorem C7_cutoff_monotonicity (t p : List Char) (c1 c2 : Sim)
    (hd1 : 0 < c1.den) (hd2 : 0 < c2.den) (hc : simLe c1 c2) (sp : Nat × Nat)
    (h : (find_best_match t p c2).1 = some sp) :
    (find_best_match t p c1).1 = some sp := by
  unfold find_best_match at h ⊢
  cases hsub : subIndex t p with
  | some s =>
      rw [hsub] at h
      exact h
  | none =>
      rw [hsub] at h
      have h2 : ((fuzzyCandidates t p).foldl (bestStep c2) (none, ⟨0, 1⟩)).1 = some sp := h
      show ((fuzzyCandidates t p).foldl (bestStep c1) (none, ⟨0, 1⟩)).1 = some sp
      have hinv := bestFold_invariant c1 c2 hd1 hd2 hc (fuzzyCandidates t p)
        (none, ⟨0, 1⟩) (none, ⟨0, 1⟩) (fuzzyCandidates_den_pos t p) (by decide)
        (le_refl _) (fun _ => rfl) (fun _ => rfl)
      rcases lt_or_le
        (simVal ((fuzzyCandidates t p).foldl (bestStep c1) (none, ⟨0, 1⟩)).2)
        (simVal c2) with hlt | hge
      · rw [hinv.2.2.2 hlt] at h2
        exact absurd h2 (by simp)
      · rw [hinv.2.2.1 hge]
        exact h2

/-- Witness for `C7_cutoff_monotonicity` at cutoffs 0.5 ≤ 0.6 on a concrete
text and pattern. -/
theorem C7_cutoff_monotonicity_witness :
    simLe ⟨1, 2⟩ ⟨3, 5⟩ ∧
    (find_best_match (lc ("ab")) (lc ("ab")) ⟨1, 2⟩).1 = some (0, 2) :=
  ⟨by decide,
   C7_cutoff_monotonicity (lc ("ab")) (lc ("ab")) ⟨1, 2⟩ ⟨3, 5⟩ (by decide) (by decide)
     (by decide) (0, 2) (by decide)⟩

/-
Boundary refinement (C5): characterizations of the two refinement loops
of `find_best_match`, and the claim-side variant of the end loop for
comparison.
-/

theorem extendEndAux_spec (t : List Char) :
    ∀ (fuel ce : Nat), t.length ≤ ce + fuel →
      ce ≤ extendEndAux t ce fuel ∧
      (∀ j, ce ≤ j → j < extendEndAux t ce fuel →
        j < t.length ∧ (t.getD (j - 1) ' ').isAlphanum = true) ∧
      ¬ (extendEndAux t ce fuel < t.length ∧
        (t.getD (extendEndAux t ce fuel - 1) ' ').isAlphanum = true)
  | 0, ce, hf => by
      refine ⟨Nat.le_refl ce, fun j h1 h2 => absurd (lt_of_le_of_lt h1 h2) (by simp [extendEndAux]), ?_⟩
      intro hc
      simp only [extendEndAux] at hc
      omega
  | fuel + 1, ce, hf => by
      unfold extendEndAux
      by_cases hg : ce < t.length ∧ (t.getD (ce - 1) ' ').isAlphanum = true
      · rw [if_pos hg]
        have ih := extendEndAux_spec t fuel (ce + 1) (by omega)
        refine ⟨by omega, ?_, ih.2.2⟩
        intro j h1 h2
        rcases Nat.eq_or_lt_of_le h1 with rfl | h1'
        · exact hg
        · exact ih.2.1 j h1' h2
      · rw [if_neg hg]
        exact ⟨Nat.le_refl ce, fun j h1 h2 => absurd (lt_of_le_of_lt h1 h2) (by omega), hg⟩

theorem extendEnd_spec (t : List Char) (ce : Nat) :
    ce ≤ extendEnd t ce ∧
    (∀ j, ce ≤ j → j < extendEnd t ce →
      j < t.length ∧ (t.getD (j - 1) ' ').isAlphanum = true) ∧
    ¬ (extendEnd t ce < t.length ∧ (t.getD (extendEnd t ce - 1) ' ').isAlphanum = true) :=
  extendEndAux_spec t (t.length - ce) ce (by omega)

theorem extendStart_spec (t : List Char) :
    ∀ s0 : Nat,
      extendStart t s0 ≤ s0 ∧
      (∀ j, extendStart t s0 ≤ j → j < s0 → (t.getD j ' ').isAlphanum = true) ∧
      ¬ (0 < extendStart t s0 ∧ (t.getD (extendStart t s0 - 1) ' ').isAlphanum = true)
  | 0 => ⟨Nat.le_refl 0, fun j h1 h2 => by omega, by simp [extendStart]⟩
  | n + 1 => by
      unfold extendStart
      by_cases hg : (t.getD n ' ').isAlphanum = true
      · rw [if_pos hg]
        have ih := extendStart_spec t n
        refine ⟨by omega, ?_, ih.2.2⟩
        intro j h1 h2
        rcases Nat.eq_or_lt_of_le (Nat.le_of_lt_succ h2) with rfl | h2'
        · exact hg
        · exact ih.2.1 j h1 h2'
      · rw [if_neg hg]
        refine ⟨Nat.le_refl _, fun j h1 h2 => by omega, ?_⟩
        intro hc
        exact hg (by simpa using hc.2)

/-- C5 (amended).  The recorded span's boundaries satisfy exactly the
source's loop conditions: the end offset is extended rightward while
`end < len(text)` and the character at `end - 1` (not at `end`) is
alphanumeric, stopping at the first offset where that guard fails; the
start offset is extended leftward over alphanumeric characters (tested at
`start - 1`), and `find_best_match` applies the start extension only when
the window's first word does not start with the pattern's first word.  On
the claim's own example the fuzzy match on `thisbook` is refined to cover
all of `thisbook` — plus the following space, because the `end - 1` guard
overshoots a completed word by one character (ratio 16/17 ≈ 0.94). -/
theorem C5_boundary_refinement_amended :
    (∀ (t : List Char) (ce : Nat),
      ce ≤ extendEnd t ce ∧
      (∀ j, ce ≤ j → j < extendEnd t ce →
        j < t.length ∧ (t.getD (j - 1) ' ').isAlphanum = true) ∧
      ¬ (extendEnd t ce < t.length ∧
        (t.getD (extendEnd t ce - 1) ' ').isAlphanum = true)) ∧
    (∀ (t : List Char) (s0 : Nat),
      extendStart t s0 ≤ s0 ∧
      (∀ j, extendStart t s0 ≤ j → j < s0 → (t.getD j ' ').isAlphanum = true) ∧
      ¬ (0 < extendStart t s0 ∧ (t.getD (extendStart t s0 - 1) ' ').isAlphanum = true)) ∧
    (∀ (t : List Char) (tw : List (List Char)) (fw : List Char) (i : Nat) (cand : List Char),
      fw.isPrefixOf (tw.getD i []) = true →
      refineSpan t tw fw i cand
        = ((joinSpace (tw.take i)).length + (if 0 < i then 1 else 0),
           extendEnd t (((joinSpace (tw.take i)).length + (if 0 < i then 1 else 0))
             + cand.length))) ∧
    find_best_match (lc ("read thisbook now")) (lc ("this book")) ⟨3, 5⟩
      = (some (5, 14), ⟨16, 17⟩) :=
  ⟨fun t ce => extendEnd_spec t ce,
   fun t s0 => extendStart_spec t s0,
   fun t tw fw i cand h => by simp only [refineSpan] ; rw [if_pos h],
   by decide⟩

/-- C5, counterexample to the claim as stated.  On text
`"read thisbook now"` with excerpt `"this book"`, the best fuzzy window
is `thisbook` with raw span `(5, 13)`; the claim's loop ("extend while
the character at index `end` is alphanumeric") would leave the end at 13
(the character there is a space), but the code records 14, because its
guard reads index `end - 1`. -/
theorem C5_boundary_refinement_counterexample :
    (find_best_match (lc ("read thisbook now")) (lc ("this book")) ⟨3, 5⟩).1
      = some (5, 14) ∧
    specExtendEnd (lc ("read thisbook now")) 13 = 13 ∧
    (14 : Nat) ≠ 13 := by
  refine ⟨?_, by decide, by decide⟩
  decide

/-- Witness for `C5_boundary_refinement_amended`: the loop
characterizations applied at the example's recorded end offset, with the
hypothesis of the inner implication discharged concretely. -/
theorem C5_boundary_refinement_amended_witness :
    (13 ≤ extendEnd (lc ("read thisbook now")) 13 ∧
      (13 < (lc ("read thisbook now")).length ∧
        ((lc ("read thisbook now")).getD 12 ' ').isAlphanum = true)) ∧
    refineSpan (lc ("read thisbook now")) [lc ("read"), lc ("thisbook"), lc ("now")]
        (lc ("this")) 1 (lc ("thisbook"))
      = (5, extendEnd (lc ("read thisbook now")) 13) :=
  ⟨⟨(C5_boundary_refinement_amended.1 (lc ("read thisbook now")) 13).1,
    (C5_boundary_refinement_amended.1 (lc ("read thisbook now")) 13).2.1 13
      (Nat.le_refl 13) (by decide)⟩,
   by
    have h := C5_boundary_refinement_amended.2.2.1 (lc ("read thisbook now"))
      [lc ("read"), lc ("thisbook"), lc ("now")] (lc ("this")) 1 (lc ("thisbook"))
      (by decide)
    simpa using h⟩

/-- C6 (amended).  Whenever the locator reports a span and the position map
is non-empty, the clamping `max(0, min(idx, len(position_map) - 1))` in
`find_markdown_in_html` keeps both indices in range, so the position map
accesses succeed and no error is raised, whatever offsets the locator's
boundary arithmetic produced — including offsets landing exactly on the
text's end.  (With an empty position map the clamp yields index 0, which
is itself out of range: see the counterexample.) -/
theorem C6_clamping_amended (html : List Char) (doc : NodeList) (mdText : List Char)
    (h : (html_to_text_map html doc).2 ≠ []) :
    ∃ r, find_markdown_in_html html doc mdText = .ok r := by
  have h0 : 0 < (html_to_text_map html doc).2.length := List.length_pos.mpr h
  cases hfb : (find_best_match (html_to_text_map html doc).1 mdText ⟨3, 5⟩).1 with
  | none =>
      refine ⟨none, ?_⟩
      simp only [find_markdown_in_html]
      rw [hfb]
  | some se =>
      have hsi1 : (0 : Int)
          ≤ max 0 (min (se.1 : Int) ((html_to_text_map html doc).2.length - 1)) :=
        le_max_left _ _
      have hsi2 : max 0 (min (se.1 : Int) ((html_to_text_map html doc).2.length - 1))
          ≤ ((html_to_text_map html doc).2.length : Int) - 1 :=
        max_le (by omega) (min_le_right _ _)
      have hei1 : (0 : Int)
          ≤ max 0 (min (se.2 : Int) ((html_to_text_map html doc).2.length - 1)) :=
        le_max_left _ _
      have hei2 : max 0 (min (se.2 : Int) ((html_to_text_map html doc).2.length - 1))
          ≤ ((html_to_text_map html doc).2.length : Int) - 1 :=
        max_le (by omega) (min_le_right _ _)
      have hsival : (max 0 (min (se.1 : Int) ((html_to_text_map html doc).2.length - 1))).toNat
          < (html_to_text_map html doc).2.length := by omega
      have heival : (max 0 (min (se.2 : Int) ((html_to_text_map html doc).2.length - 1))).toNat
          < (html_to_text_map html doc).2.length := by omega
      obtain ⟨v1, hv1⟩ : ∃ v, (html_to_text_map html doc).2[(max 0 (min (se.1 : Int)
          ((html_to_text_map html doc).2.length - 1))).toNat]? = some v :=
        ⟨_, List.getElem?_eq_getElem hsival⟩
      obtain ⟨v2, hv2⟩ : ∃ v, (html_to_text_map html doc).2[(max 0 (min (se.2 : Int)
          ((html_to_text_map html doc).2.length - 1))).toNat]? = some v :=
        ⟨_, List.getElem?_eq_getElem heival⟩
      refine ⟨some (pySlice html v1 v2, v1, v2,
        (find_best_match (html_to_text_map html doc).1 mdText ⟨3, 5⟩).2), ?_⟩
      simp only [find_markdown_in_html]
      rw [hfb]
      dsimp only
      rw [hv1, hv2]

/-- C6, counterexample to the claim as stated.  A document with no text
content has an empty position map; locating the empty excerpt (a markdown
excerpt rendering to no text) still reports a span via the exact-match
fast path, the clamp `max(0, min(idx, len(map) - 1))` produces index 0,
and indexing the empty position map raises `IndexError` — the code
crashes instead of yielding a degenerate span. -/
theorem C6_clamping_counterexample :
    (html_to_text_map (lc ("<p></p>")) (.cons (.elem (lc ("p")) [] .nil) .nil)).2 = [] ∧
    find_markdown_in_html (lc ("<p></p>")) (.cons (.elem (lc ("p")) [] .nil) .nil) []
      = .error () :=
  ⟨rfl, rfl⟩

/-- Witness for `C6_clamping_amended` on a concrete document with a
non-empty position map. -/
theorem C6_clamping_amended_witness :
    (html_to_text_map (lc ("ab")) (.cons (.text (lc ("ab"))) .nil)).2 ≠ [] ∧
    ∃ r, find_markdown_in_html (lc ("ab")) (.cons (.text (lc ("ab"))) .nil) (lc ("ab"))
      = .ok r :=
  ⟨by decide,
   C6_clamping_amended (lc ("ab")) (.cons (.text (lc ("ab"))) .nil) (lc ("ab")) (by decide)⟩

/-- C10.  In the per-excerpt placement loop of
`process_highlights_in_content`, a placement whose markup start offset is
`0` fails Python's truthiness test `if highlight["start_index"]:` and is
treated exactly like "not found": no markers are inserted, the excerpt is
reported as a failed import (`false` flag), and the content is returned
unchanged. -/
theorem C10_zero_start_is_failure (html : List Char) (doc : NodeList)
    (quote m : List Char) (e : Nat) (r : Sim)
    (h : find_markdown_in_html html doc quote = .ok (some (m, 0, e, r))) :
    process_highlight_step html doc quote = .ok (html, false) := by
  unfold process_highlight_step
  rw [h]
  simp

/-- Witness for `C10_zero_start_is_failure`: the excerpt `"ab"` matches the
document `"ab"` at markup offset 0, and the iteration leaves the content
unchanged and reports failure. -/
theorem C10_zero_start_is_failure_witness :
    find_markdown_in_html (lc ("ab")) (.cons (.text (lc ("ab"))) .nil) (lc ("ab"))
      = .ok (some (lc ("a"), 0, 1, ⟨1, 1⟩)) ∧
    process_highlight_step (lc ("ab")) (.cons (.text (lc ("ab"))) .nil) (lc ("ab"))
      = .ok (lc ("ab"), false) :=
  ⟨rfl, C10_zero_start_is_failure (lc ("ab")) (.cons (.text (lc ("ab"))) .nil) (lc ("ab"))
    (lc ("a")) 1 ⟨1, 1⟩ rfl⟩

/-- Python `max(candidates, key=f)` as folded by `find_closest_match`:
the result is the incumbent-keeping first maximum — every earlier element
is strictly smaller, every later one is no larger. -/
theorem foldFirstMax (f : List Char → Sim) (hpos : ∀ x, 0 < (f x).den) :
    ∀ (l : List (List Char)) (c : List Char),
      (l.foldl (fun best x => if simLt (f best) (f x) then x else best) c = c ∧
        ∀ x ∈ l, simVal (f x) ≤ simVal (f c)) ∨
      (∃ l₁ l₂,
        l = l₁ ++ (l.foldl (fun best x => if simLt (f best) (f x) then x else best) c) :: l₂ ∧
        simVal (f c)
          < simVal (f (l.foldl (fun best x => if simLt (f best) (f x) then x else best) c)) ∧
        (∀ x ∈ l₁, simVal (f x)
          < simVal (f (l.foldl (fun best x => if simLt (f best) (f x) then x else best) c))) ∧
        (∀ x ∈ l₂, simVal (f x)
          ≤ simVal (f (l.foldl (fun best x => if simLt (f best) (f x) then x else best) c))))
  | [], c => Or.inl ⟨rfl, fun x hx => absurd hx (List.not_mem_nil x)⟩
  | x :: xs, c => by
      simp only [List.foldl_cons]
      by_cases h : simLt (f c) (f x)
      · rw [if_pos h]
        have hcx : simVal (f c) < simVal (f x) := (simLt_iff _ _ (hpos c) (hpos x)).mp h
        rcases foldFirstMax f hpos xs x with ⟨heq, hall⟩ | ⟨l₁, l₂, hsplit, hgt, hl₁, hl₂⟩
        · rw [heq]
          refine Or.inr ⟨[], xs, by simp, hcx, by simp, hall⟩
        · refine Or.inr ⟨x :: l₁, l₂, by rw [List.cons_append, ← hsplit], lt_trans hcx hgt, ?_, hl₂⟩
          intro y hy
          rcases List.mem_cons.mp hy with rfl | hy'
          · exact hgt
          · exact hl₁ y hy'
      · rw [if_neg h]
        have hxc : simVal (f x) ≤ simVal (f c) := by
          by_contra hco
          push_neg at hco
          exact h ((simLt_iff _ _ (hpos c) (hpos x)).mpr hco)
        rcases foldFirstMax f hpos xs c with ⟨heq, hall⟩ | ⟨l₁, l₂, hsplit, hgt, hl₁, hl₂⟩
        · rw [heq]
          refine Or.inl ⟨rfl, ?_⟩
          intro y hy
          rcases List.mem_cons.mp hy with rfl | hy'
          · exact hxc
          · exact hall y hy'
        · refine Or.inr ⟨x :: l₁, l₂, by rw [List.cons_append, ← hsplit], hgt, ?_, hl₂⟩
          intro y hy
          rcases List.mem_cons.mp hy with rfl | hy'
          · exact lt_of_le_of_lt hxc hgt
          · exact hl₁ y hy'

/-- C3.  Record Reconciler contract of `find_closest_match`: the empty
candidate list fails with the `InvalidInput` condition (Python
`ValueError`); a non-empty candidate list yields the first-encountered
candidate maximizing case-insensitive, order-sensitive character
similarity to the target (every earlier candidate is strictly less
similar, every candidate is at most as similar — so ties keep the
incumbent); and on target `"the Quick fox"` with candidates
`["The quick fox", "A quick fox"]` the first candidate wins.  The model
is a pure function, so repeated calls on fixed inputs trivially return
the same candidate. -/
theorem C3_reconciler_contract :
    (∀ target : List Char, find_closest_match target [] = .error ()) ∧
    (∀ (target c : List Char) (cs : List (List Char)),
      ∃ r l₁ l₂, find_closest_match target (c :: cs) = .ok r ∧
        c :: cs = l₁ ++ r :: l₂ ∧
        (∀ x ∈ l₁, simVal (similarity target x) < simVal (similarity target r)) ∧
        (∀ x ∈ c :: cs, simVal (similarity target x) ≤ simVal (similarity target r))) ∧
    find_closest_match (lc ("the Quick fox")) [lc ("The quick fox"), lc ("A quick fox")]
      = .ok (lc ("The quick fox")) := by
  refine ⟨fun target => rfl, ?_, rfl⟩
  intro target c cs
  have hpos : ∀ x : List Char, 0 < (similarity target x).den := fun x => ratio_den_pos _ _
  rcases foldFirstMax (similarity target) hpos cs c with ⟨heq, hall⟩ |
    ⟨l₁, l₂, hsplit, hgt, hl₁, hl₂⟩
  · refine ⟨c, [], cs, ?_, by simp [heq], by simp, ?_⟩
    · show Except.ok (cs.foldl _ c) = _
      rw [heq]
    · intro y hy
      rcases List.mem_cons.mp hy with rfl | hy'
      · exact le_refl _
      · exact hall y hy'
  · refine ⟨cs.foldl (fun best x =>
        if simLt (similarity target best) (similarity target x) then x else best) c,
      c :: l₁, l₂, rfl, by rw [List.cons_append, ← hsplit], ?_, ?_⟩
    · intro y hy
      rcases List.mem_cons.mp hy with rfl | hy'
      · exact hgt
      · exact hl₁ y hy'
    · intro y hy
      rcases List.mem_cons.mp hy with rfl | hy'
      · exact le_of_lt hgt
      · rw [hsplit] at hy'
        rcases List.mem_append.mp hy' with hy₁ | hy₂
        · exact le_of_lt (hl₁ y hy₁)
        · rcases List.mem_cons.mp hy₂ with rfl | hy₃
          · exact le_refl _
          · exact hl₂ y hy₃

theorem parse_quotes_loop :
    ∀ (blocks : List (List Char)) (res : ParseResult) (cur : Option Highlight),
      (flushHighlights (blocks.foldl parseStep (res, cur))).map (fun h => h.quote)
        = res.highlights.map (fun h => h.quote)
          ++ (match cur with | some h => [h.quote] | none => [])
          ++ (blocks.filter isQuoteBlock).map quoteOfBlock
  | [], res, cur => by
      cases cur with
      | none => simp [flushHighlights]
      | some h => simp [flushHighlights]
  | b :: bs, res, cur => by
      simp only [List.foldl_cons, List.filter_cons]
      by_cases hq : startsWithChar '>' (blockHead b) = true
      · have hqb : isQuoteBlock b = true := hq
        rw [hqb]
        have hstep : parseStep (res, cur) b
            = (⟨res.article_note,
                match cur with
                | some ch => res.highlights ++ [ch]
                | none => res.highlights⟩,
               some ⟨quoteOfBlock b, [], none⟩) := by
          simp only [parseStep]
          rw [if_pos hq]
        rw [hstep]
        rw [parse_quotes_loop bs _ _]
        cases cur with
        | none => simp
        | some ch => simp
      · have hqb : isQuoteBlock b = false := by
          rw [isQuoteBlock]
          exact Bool.not_eq_true _ ▸ (by simpa using hq)
        rw [hqb]
        by_cases hl : startsWithChar '#' (blockHead b) = true
        · cases cur with
          | some ch =>
              have hstep : parseStep (res, some ch) b
                  = (res, some ⟨ch.quote,
                      ch.labels ++ [pyStrip ((blockHead b).dropWhile (fun c => c = '#'))],
                      ch.notes⟩) := by
                simp only [parseStep]
                rw [if_neg (by simpa using hq), if_pos hl]
              rw [hstep, parse_quotes_loop bs _ _]
              simp
          | none =>
              have hstep : parseStep (res, none) b = (res, none) := by
                simp only [parseStep]
                rw [if_neg (by simpa using hq), if_pos hl]
              rw [hstep, parse_quotes_loop bs _ _]
              simp
        · cases cur with
          | none =>
              by_cases ht : strTruthy res.article_note = true
              · have hstep : parseStep (res, none) b
                    = (⟨some ((res.article_note.getD []) ++ lc ("\n\n") ++ pyStrip b),
                        res.highlights⟩, none) := by
                  simp only [parseStep]
                  rw [if_neg (by simpa using hq), if_neg (by simpa using hl), if_pos ht]
                rw [hstep, parse_quotes_loop bs _ _]
                simp
              · have hstep : parseStep (res, none) b
                    = (⟨some (pyStrip b), res.highlights⟩, none) := by
                  simp only [parseStep]
                  rw [if_neg (by simpa using hq), if_neg (by simpa using hl),
                    if_neg (by simpa using ht)]
                rw [hstep, parse_quotes_loop bs _ _]
                simp
          | some ch =>
              by_cases ht : strTruthy ch.notes = true
              · have hstep : parseStep (res, some ch) b
                    = (res, some ⟨ch.quote, ch.labels,
                        some ((ch.notes.getD []) ++ lc ("\n\n") ++ pyStrip b)⟩) := by
                  simp only [parseStep]
                  rw [if_neg (by simpa using hq), if_neg (by simpa using hl), if_pos ht]
                rw [hstep, parse_quotes_loop bs _ _]
                simp
              · have hstep : parseStep (res, some ch) b
                    = (res, some ⟨ch.quote, ch.labels, some (pyStrip b)⟩) := by
                  simp only [parseStep]
                  rw [if_neg (by simpa using hq), if_neg (by simpa using hl),
                    if_neg (by simpa using ht)]
                rw [hstep, parse_quotes_loop bs _ _]
                simp

/-- C4 (amended).  For every note-file content, the parser produces exactly
one record per block whose first line starts with `'>'`, in order, and
each record's quote is the block's lines each stripped of ALL leading
`'>'` and space characters (Python `lstrip('> ')` strips a character
set), then of surrounding whitespace, rejoined with line breaks — so
multi-line quotes retain their internal line breaks, but nested markers
like `">> x"` lose every leading `'>'`, not just the first. -/
theorem C4_quote_grammar_amended (content : List Char) :
    ((parse_highlights_file (some content)).highlights).map (fun h => h.quote)
      = ((splitBlocks (pyStrip content)).filter isQuoteBlock).map quoteOfBlock := by
  have key2 : (parse_highlights_file (some content)).highlights
      = flushHighlights ((splitBlocks (pyStrip content)).foldl parseStep (⟨none, []⟩, none)) := by
    simp only [parse_highlights_file, flushHighlights]
    cases hst : ((splitBlocks (pyStrip content)).foldl parseStep (⟨none, []⟩, none)).2 with
    | none => rfl
    | some h => rfl
  rw [key2, parse_quotes_loop (splitBlocks (pyStrip content)) ⟨none, []⟩ none]
  simp

/-- C4, counterexample to the claim as stated.  For the quote block
`"> a\n>> b"`, Python's `lstrip('> ')` strips every leading `'>'` and
space, producing the quote `"a\nb"`, while stripping only "the leading
marker and one following space" per line would produce `"a\n> b"`. -/
theorem C4_quote_grammar_counterexample :
    parse_highlights_file (some (lc ("> a\n>> b")))
      = ⟨none, [⟨lc ("a\nb"), [], none⟩]⟩ ∧
    specQuoteOfBlock (lc ("> a\n>> b")) = lc ("a\n> b") ∧
    lc ("a\nb") ≠ lc ("a\n> b") := by
  refine ⟨by decide, by decide, by decide⟩

/-- C8 (amended).  A missing note file parses to the empty result (note
`None`, no records).  An empty source document also yields no records and
never raises — but its top-level note is the empty string, not `None`
(the loop runs once on the empty block and assigns `block.strip()`); the
empty string is falsy, so every downstream truthiness test treats it as
absent.  The parser is a total function, so no input raises. -/
theorem C8_empty_source_amended :
    parse_highlights_file none = ⟨none, []⟩ ∧
    parse_highlights_file (some []) = ⟨some [], []⟩ ∧
    strTruthy (parse_highlights_file (some [])).article_note = false := by
  refine ⟨rfl, by decide, by decide⟩

/-- C8, counterexample to the claim as stated: parsing the empty source
document yields a top-level note equal to the empty string `some ""`,
which is not the absent note `none` the claim requires. -/
theorem C8_empty_source_counterexample :
    (parse_highlights_file (some [])).article_note = some [] ∧
    (parse_highlights_file (some [])).article_note ≠ none := by
  refine ⟨by decide, by decide⟩

/-- The flattened plain text of any document is the concatenation of its
nodes' contributions. -/
theorem html_to_text_map_plain (doc : NodeList) :
    (html_to_text_map (renderForest doc) doc).1 = forestPlain (lc ("[document]")) doc := by
  have h := flattenForest_spec (renderForest doc) doc (lc ("[document]")) ⟨[], [], 0⟩ 0
    (Nat.le_refl 0) (by rw [List.drop_zero])
  have h2 := h.2.1
  show (flattenForest (renderForest doc) (lc ("[document]")) doc ⟨[], [], 0⟩).plain = _
  rw [h2]
  rfl

/-- C9 (amended).  `add_highlight_tag` leaves every byte outside the two
insertion points identical (first conjunct, the definitional splice); for
escape-free text the injected string parses back to the five-node forest
`injectedForest` (second conjunct); and re-flattening the injected markup
reproduces the original plain text provided the text is escape-free AND
no nonempty split piece is whitespace-only (third conjunct).  Both
provisos are necessary: a whitespace-only piece is dropped by the
flattener's whitespace rule, and a piece spelled differently from its
`html.escape` form (a bare `&` or `>`) is stripped by the scan-failure
retry — each is a failure mode of the counterexample. -/
theorem C9_marker_injection_amended (s : List Char) (i j : Nat)
    (hplain : s.all plainChar = true) (hij : i ≤ j) (hjs : j ≤ s.length)
    (h1 : pyStrip (s.take i) = [] → s.take i = [])
    (h2 : pyStrip (pySlice s i j) = [] → pySlice s i j = [])
    (h3 : pyStrip (s.drop j) = [] → s.drop j = []) :
    add_highlight_tag s i j
      = s.take i ++ hlStartTag ++ pySlice s i j ++ hlEndTag ++ s.drop j ∧
    renderForest (injectedForest s i j) = add_highlight_tag s i j ∧
    (html_to_text_map (add_highlight_tag s i j) (injectedForest s i j)).1
      = (html_to_text_map s (.cons (.text s) .nil)).1 := by
  have hallpieces : ∀ x ∈ s, plainChar x = true := List.all_eq_true.mp hplain
  have hp1 : (s.take i).all plainChar = true :=
    List.all_eq_true.mpr (fun x hx => hallpieces x (List.mem_of_mem_take hx))
  have hp2 : (pySlice s i j).all plainChar = true :=
    List.all_eq_true.mpr
      (fun x hx => hallpieces x (List.mem_of_mem_take (List.mem_of_mem_drop hx)))
  have hp3 : (s.drop j).all plainChar = true :=
    List.all_eq_true.mpr (fun x hx => hallpieces x (List.mem_of_mem_drop hx))
  have hm1 : renderNode (.elem (lc ("span"))
      (lc (" data-omnivore-highlight-start=\"true\"")) .nil) = hlStartTag := by decide
  have hm2 : renderNode (.elem (lc ("span"))
      (lc (" data-omnivore-highlight-end=\"true\"")) .nil) = hlEndTag := by decide
  have hsplit : s.take i ++ (pySlice s i j ++ s.drop j) = s := by
    show s.take i ++ ((s.take j).drop i ++ s.drop j) = s
    have hti : s.take i = (s.take j).take i := by
      rw [List.take_take, min_eq_left hij]
    rw [hti, ← List.append_assoc, List.take_append_drop, List.take_append_drop]
  have hren : renderForest (injectedForest s i j) = add_highlight_tag s i j := by
    simp only [injectedForest, renderForest]
    rw [hm1, hm2]
    simp only [renderNode]
    rw [htmlEscape_of_plain _ hp1, htmlEscape_of_plain _ hp2, htmlEscape_of_plain _ hp3]
    simp [add_highlight_tag, List.append_assoc]
  have hrender : renderForest (.cons (.text s) .nil) = s := by
    simp [renderForest, renderNode, htmlEscape_of_plain s hplain]
  have hplainL : (html_to_text_map (add_highlight_tag s i j) (injectedForest s i j)).1
      = forestPlain (lc ("[document]")) (injectedForest s i j) := by
    have h := html_to_text_map_plain (injectedForest s i j)
    rwa [hren] at h
  have hplainR : (html_to_text_map s (.cons (.text s) .nil)).1
      = forestPlain (lc ("[document]")) (.cons (.text s) .nil) := by
    have h := html_to_text_map_plain (.cons (.text s) .nil)
    rwa [hrender] at h
  refine ⟨rfl, hren, ?_⟩
  · rw [hplainL, hplainR]
    have hroot : ¬ excludedTag (lc ("[document]")) = true := by decide
    have hnp : ∀ p : List Char, (pyStrip p = [] → p = []) →
        nodePlain (lc ("[document]")) (.text p) = p := by
      intro p hp
      simp only [nodePlain, if_neg hroot]
      by_cases hcase : pyStrip p = []
      · rw [if_pos hcase, hp hcase]
      · rw [if_neg hcase]
    have hmarker : ∀ a : List Char,
        nodePlain (lc ("[document]")) (.elem (lc ("span")) a .nil) = [] := by
      intro a
      simp only [nodePlain, forestPlain]
    simp only [injectedForest, forestPlain]
    rw [hnp _ h1, hnp _ h2, hnp _ h3, hmarker, hmarker]
    by_cases hs : pyStrip s = []
    · have hsall := List.all_eq_true.mp ((pyStrip_eq_nil_iff s).mp hs)
      have ht1 : s.take i = [] := h1 ((pyStrip_eq_nil_iff _).mpr
        (List.all_eq_true.mpr (fun x hx => hsall x (List.mem_of_mem_take hx))))
      have ht2 : pySlice s i j = [] := h2 ((pyStrip_eq_nil_iff _).mpr
        (List.all_eq_true.mpr
          (fun x hx => hsall x (List.mem_of_mem_take (List.mem_of_mem_drop hx)))))
      have ht3 : s.drop j = [] := h3 ((pyStrip_eq_nil_iff _).mpr
        (List.all_eq_true.mpr (fun x hx => hsall x (List.mem_of_mem_drop hx))))
      rw [ht1, ht2, ht3]
      simp only [nodePlain, if_neg hroot, if_pos hs]
      simp
    · have hnps : nodePlain (lc ("[document]")) (.text s) = s := by
        simp only [nodePlain, if_neg hroot]
        rw [if_neg hs]
      rw [hnps]
      simp only [List.append_nil, List.nil_append]
      exact hsplit

/-- C9, counterexample to the claim as stated, in two independent failure
modes.  First: injecting markers into the plain-text document `"a b"` at
the in-range span `(1, 2)` splits the single space into its own text
node; the flattener skips whitespace-only text nodes, so re-flattening
the injected markup yields `"ab"` ≠ `"a b"`.  Second: for the document
`"a& b"` and span `(1, 3)` the spliced piece `"& "` is not spelled as its
`html.escape` form `"&amp; "`, both forward scans exhaust, and the
scan-failure retry strips the piece to `"&"`, so re-flattening yields
`"a&b"` ≠ `"a& b"`.  Marker injection is not plain-text idempotent. -/
theorem C9_marker_injection_counterexample :
    renderForest (injectedForest (lc ("a b")) 1 2) = add_highlight_tag (lc ("a b")) 1 2 ∧
    (html_to_text_map (lc ("a b")) (.cons (.text (lc ("a b"))) .nil)).1 = lc ("a b") ∧
    (html_to_text_map (add_highlight_tag (lc ("a b")) 1 2)
        (injectedForest (lc ("a b")) 1 2)).1 = lc ("ab") ∧
    lc ("ab") ≠ lc ("a b") ∧
    (html_to_text_map (lc ("a& b")) (.cons (.text (lc ("a& b"))) .nil)).1 = lc ("a& b") ∧
    (html_to_text_map (add_highlight_tag (lc ("a& b")) 1 3)
        (injectedForest (lc ("a& b")) 1 3)).1 = lc ("a&b") ∧
    lc ("a&b") ≠ lc ("a& b") :=
  ⟨by decide, by decide, by decide, by decide, by decide, by decide, by decide⟩

/-- Witness for `C9_marker_injection_amended` at the document `"abc"` with
span `(1, 2)`; all hypotheses are discharged by `decide`. -/
theorem C9_marker_injection_amended_witness :
    add_highlight_tag (lc ("abc")) 1 2
      = (lc ("abc")).take 1 ++ hlStartTag ++ pySlice (lc ("abc")) 1 2 ++ hlEndTag
        ++ (lc ("abc")).drop 2 ∧
    renderForest (injectedForest (lc ("abc")) 1 2) = add_highlight_tag (lc ("abc")) 1 2 ∧
    (html_to_text_map (add_highlight_tag (lc ("abc")) 1 2)
        (injectedForest (lc ("abc")) 1 2)).1
      = (html_to_text_map (lc ("abc")) (.cons (.text (lc ("abc"))) .nil)).1 :=
  C9_marker_injection_amended (lc ("abc")) 1 2 (by decide) (by decide) (by decide)
    (by decide) (by decide) (by decide)

/-- Witness for `C3_reconciler_contract`: the error case, the contract
instantiated at a concrete candidate list, and the concrete example. -/
theorem C3_reconciler_contract_witness :
    find_closest_match (lc ("x")) [] = .error () ∧
    (∃ r l₁ l₂, find_closest_match (lc ("x")) (lc ("a") :: [lc ("b")]) = .ok r ∧
      lc ("a") :: [lc ("b")] = l₁ ++ r :: l₂ ∧
      (∀ x ∈ l₁, simVal (similarity (lc ("x")) x) < simVal (similarity (lc ("x")) r)) ∧
      (∀ x ∈ lc ("a") :: [lc ("b")],
        simVal (similarity (lc ("x")) x) ≤ simVal (similarity (lc ("x")) r))) ∧
    find_closest_match (lc ("the Quick fox")) [lc ("The quick fox"), lc ("A quick fox")]
      = .ok (lc ("The quick fox")) :=
  ⟨C3_reconciler_contract.1 (lc ("x")),
   C3_reconciler_contract.2.1 (lc ("x")) (lc ("a")) [lc ("b")],
   C3_reconciler_contract.2.2⟩
